import Mathlib

set_option maxHeartbeats 1000000
set_option linter.unusedSectionVars false

/-!
Shallow embedding of the wfc3d wave function collapse engine (`src/lib.rs`).

The engine is generic over three abstract collaborators, which we embed as
plain data:

* `State` (`St`): an abstract type together with an entropy function
  `entropy : St → Nat` (the trait's `entropy() → u32`; theorems carry the
  `u32` range bound as an explicit hypothesis where it matters);
* `Space`: a coordinate type `C` with decidable equality, a stable
  coordinate enumeration `coords : List C`, a neighbor lookup
  `nb : C → D → Option C`, and the mutable cell contents as an assignment
  `assign : C → St` passed through explicitly;
* `CollapseRule`: the structure `CollapseRule` below.

The driver's `HashSet` of unresolved coordinates is embedded as a
duplicate-free `List C` (a set with an iteration order), its `VecDeque`
work queue as a `List C` (pop at the head, push at the tail), and
`thread_rng().gen_range(0..n)` as `rng i % n` for a random stream
`rng : Nat → Nat` with a running index that advances once per draw.

The two loops of the source (`run_propagation`'s queue drain and the
`while let` of `collapse`) are embedded with an explicit fuel parameter;
running out of fuel yields `none`.  The termination theorem exhibits fuel
for which the run completes.  The embedding additionally counts the calls
to `rule.collapse` and records one event `(coordinate, entropy at the
call)` per call to `rule.observe`, so that claims about call counts are
statable.
-/

/-- The largest value of `u32`: the initial value of `lowest_entropy` in
`find_next_to_collapse` (`std::u32::MAX`), and the range of the trait
method `State::entropy`. -/
def UINT32_MAX : Nat := 4294967295

/-- The `CollapseRule` trait: the fixed neighbor-offset list, the
deterministic `collapse` operation and the `observe` operation.  The
source rule may draw on its own random source inside `observe`; a fixed
random sequence makes it a function, which is how it is embedded here. -/
structure CollapseRule (D St : Type) where
  neighbor_offsets : List D
  collapse : St → List (Option St) → St
  observe : St → List (Option St) → St

/-- `space.neighbors(c, deltas, out)`: for each delta in order, the
neighbor coordinate reached from `c`, or `none` at a boundary. -/
def neighborCoords {C D : Type} (nb : C → D → Option C) (deltas : List D) (c : C) :
    List (Option C) :=
  deltas.map (fun d => nb c d)

/-- The snapshot loop `neighbor_states[i] = neighbors[i].map(|coord|
space[coord].clone())`: clone each present neighbor's current state. -/
def snapshot {C St : Type} (assign : C → St) (nbrs : List (Option C)) :
    List (Option St) :=
  nbrs.map (fun oc => oc.map assign)

/-- The scanning loop of `find_next_to_collapse`: walk the unresolved set
carrying the lowest entropy seen so far, the candidate list and the list
of coordinates found resolved (entropy 0). -/
def findScan {C St : Type} (entropy : St → Nat) (assign : C → St) :
    List C → Nat → List C → List C → Nat × List C × List C
  | [], low, cands, res => (low, cands, res)
  | c :: rest, low, cands, res =>
    let e := entropy (assign c)
    if e = 0 then findScan entropy assign rest low cands (res ++ [c])
    else if e < low then findScan entropy assign rest e [c] res
    else if e = low then findScan entropy assign rest low (cands ++ [c]) res
    else findScan entropy assign rest low cands res

/-- `find_next_to_collapse`: scan the unresolved set, retain only the
coordinates not found resolved, and return a uniformly sampled candidate
of minimal positive entropy (or `none` when there is no candidate)
together with the updated unresolved set.  `r` is the raw draw of the
random stream for this call; the index into the candidate list is
`r % len`, and the draw is consumed only when a candidate exists. -/
def find_next_to_collapse {C St : Type} [DecidableEq C] (entropy : St → Nat)
    (assign : C → St) (unresolved : List C) (r : Nat) : Option C × List C :=
  let sc := findScan entropy assign unresolved UINT32_MAX [] []
  (match sc.2.1 with
   | [] => none
   | a :: tail => some ((a :: tail).getD (r % (a :: tail).length) a),
   unresolved.filter (fun x => decide (¬ x ∈ sc.2.2)))

/-- The body of `run_propagation` for one popped coordinate `c` with
remaining queue `q`: skip if the entropy is 0; otherwise snapshot the
neighbors, apply `rule.collapse`, and if the entropy strictly dropped,
push every present neighbor whose current entropy is nonzero onto the back
of the queue.  Also reports the number of `rule.collapse` calls made
(0 or 1). -/
def propStep {C D St : Type} [DecidableEq C] (rule : CollapseRule D St)
    (nb : C → D → Option C) (entropy : St → Nat)
    (assign : C → St) (c : C) (q : List C) : (C → St) × List C × Nat :=
  let eb := entropy (assign c)
  if eb = 0 then (assign, q, 0)
  else
    let nbrs := neighborCoords nb rule.neighbor_offsets c
    let s' := rule.collapse (assign c) (snapshot assign nbrs)
    let assign' := Function.update assign c s'
    let q' :=
      if entropy s' < eb then
        q ++ (nbrs.filterMap id).filter (fun n => decide (¬ entropy (assign' n) = 0))
      else q
    (assign', q', 1)

/-- `run_propagation`: drain the work queue with `propStep`, with explicit
fuel.  Returns the final assignment and the accumulated count of
`rule.collapse` calls, or `none` when the fuel runs out. -/
def run_propagation {C D St : Type} [DecidableEq C] (rule : CollapseRule D St)
    (nb : C → D → Option C) (entropy : St → Nat) :
    Nat → (C → St) → List C → Nat → Option ((C → St) × Nat)
  | _, assign, [], k => some (assign, k)
  | 0, _, _ :: _, _ => none
  | fuel + 1, assign, c :: q, k =>
    let r := propStep rule nb entropy assign c q
    run_propagation rule nb entropy fuel r.1 r.2.1 (k + r.2.2)

/-- The observation step of the main loop of `collapse`: snapshot the
neighbors of the selected coordinate, call `rule.observe` on it, and
report the queue of present neighbors to propagate from together with the
observation event `(coordinate, entropy at the call)`. -/
def observeStep {C D St : Type} [DecidableEq C] (rule : CollapseRule D St)
    (nb : C → D → Option C) (entropy : St → Nat)
    (assign : C → St) (c : C) : (C → St) × List C × (C × Nat) :=
  let nbrs := neighborCoords nb rule.neighbor_offsets c
  let s' := rule.observe (assign c) (snapshot assign nbrs)
  (Function.update assign c s', nbrs.filterMap id, (c, entropy (assign c)))

/-- The result of a completed run of the driver: the final assignment of
states, the final unresolved set, the index reached in the random stream,
the total number of `rule.collapse` calls, and the recorded `rule.observe`
events in order. -/
structure CollapseResult (C St : Type) where
  assign : C → St
  unresolved : List C
  rix : Nat
  ncollapse : Nat
  events : List (C × Nat)

/-- The seeding pass of `collapse`: every coordinate whose entropy is
positive enters the unresolved set, in coordinate-list order. -/
def collapseInit {C St : Type} (entropy : St → Nat) (coords : List C)
    (assign : C → St) : List C :=
  coords.filter (fun c => decide (0 < entropy (assign c)))

/-- The `while let` loop of `collapse`: select the next coordinate with
`find_next_to_collapse`, observe it, enqueue its present neighbors and run
the propagation to a fixed point; stop when no candidate remains.  `fuel`
bounds the number of loop iterations and `pfuel` is handed to each
propagation run. -/
def collapseLoop {C D St : Type} [DecidableEq C] (rule : CollapseRule D St)
    (nb : C → D → Option C) (entropy : St → Nat) (rng : Nat → Nat) (pfuel : Nat) :
    Nat → (C → St) → List C → Nat → Nat → List (C × Nat) →
      Option (CollapseResult C St)
  | 0, _, _, _, _, _ => none
  | fuel + 1, assign, unresolved, rix, k, evs =>
    let f := find_next_to_collapse entropy assign unresolved (rng rix)
    match f.1 with
    | none => some ⟨assign, f.2, rix, k, evs⟩
    | some c =>
      let ob := observeStep rule nb entropy assign c
      match run_propagation rule nb entropy pfuel ob.1 ob.2.1 k with
      | none => none
      | some (a', k') =>
        collapseLoop rule nb entropy rng pfuel fuel a' f.2 (rix + 1) k'
          (evs ++ [ob.2.2])

/-- The driver `collapse(space, rule)`: seed the unresolved set from all
coordinates of positive entropy, enqueue them all for an initial
propagation pass, run it to a fixed point, then run the main loop. -/
def collapse {C D St : Type} [DecidableEq C] (rule : CollapseRule D St)
    (nb : C → D → Option C) (entropy : St → Nat) (coords : List C)
    (rng : Nat → Nat) (fuel pfuel : Nat) (assign : C → St) :
    Option (CollapseResult C St) :=
  let unresolved := collapseInit entropy coords assign
  match run_propagation rule nb entropy pfuel assign unresolved 0 with
  | none => none
  | some (a', k) => collapseLoop rule nb entropy rng pfuel fuel a' unresolved 0 k []

/-- The total entropy of the space: the sum of the entropies of all cells,
in coordinate-list order.  The termination measure of the propagation
loop is built from it. -/
def totalEntropy {C St : Type} (entropy : St → Nat) (coords : List C)
    (assign : C → St) : Nat :=
  (coords.map (fun c => entropy (assign c))).sum

/-- Termination measure for `run_propagation`: queue length plus
`(number of offsets + 1)` times the total entropy. -/
def propMeasure {C D St : Type} (rule : CollapseRule D St) (entropy : St → Nat)
    (coords : List C) (assign : C → St) (q : List C) : Nat :=
  q.length + (rule.neighbor_offsets.length + 1) * totalEntropy entropy coords assign

/-- The main loop of `collapse` with the iteration order of the
`unresolved` `HashSet` made explicit.  The source keeps the unresolved
coordinates in a `std::collections::HashSet`, whose default
`RandomState` randomizes the order in which `unresoved_set.iter()`
yields its elements per instance and per run; that order is therefore an
environment input of the program, modelled here as a function `ord`
applied to the set's contents at each iteration point (the scan of
`find_next_to_collapse`).  `collapseLoop` is the instance `ord = id`
(`collapseLoopH_id`). -/
def collapseLoopH {C D St : Type} [DecidableEq C] (rule : CollapseRule D St)
    (nb : C → D → Option C) (entropy : St → Nat) (ord : List C → List C)
    (rng : Nat → Nat) (pfuel : Nat) :
    Nat → (C → St) → List C → Nat → Nat → List (C × Nat) →
      Option (CollapseResult C St)
  | 0, _, _, _, _, _ => none
  | fuel + 1, assign, unresolved, rix, k, evs =>
    let f := find_next_to_collapse entropy assign (ord unresolved) (rng rix)
    match f.1 with
    | none => some ⟨assign, f.2, rix, k, evs⟩
    | some c =>
      let ob := observeStep rule nb entropy assign c
      match run_propagation rule nb entropy pfuel ob.1 ob.2.1 k with
      | none => none
      | some (a', k') =>
        collapseLoopH rule nb entropy ord rng pfuel fuel a' f.2 (rix + 1) k'
          (evs ++ [ob.2.2])

/-- The driver with the unresolved-set iteration order made explicit: the
seeding loop `for coordinate in unresolved_set.iter()` that fills the
initial work queue also follows the set's iteration order.  `collapse`
is the instance `ord = id` (`collapseHash_id`). -/
def collapseHash {C D St : Type} [DecidableEq C] (rule : CollapseRule D St)
    (nb : C → D → Option C) (entropy : St → Nat) (ord : List C → List C)
    (coords : List C) (rng : Nat → Nat) (fuel pfuel : Nat) (assign : C → St) :
    Option (CollapseResult C St) :=
  let unresolved := collapseInit entropy coords assign
  match run_propagation rule nb entropy pfuel assign (ord unresolved) 0 with
  | none => none
  | some (a', k) =>
    collapseLoopH rule nb entropy ord rng pfuel fuel a' unresolved 0 k []

section FindLemmas

variable {C St : Type} (entropy : St → Nat) (assign : C → St)

/-- Unfolding `findScan` on a resolved head. -/
lemma findScan_cons_zero {c : C} (rest : List C) (low : Nat) (cands res : List C)
    (h0 : entropy (assign c) = 0) :
    findScan entropy assign (c :: rest) low cands res =
      findScan entropy assign rest low cands (res ++ [c]) := by
  simp only [findScan]
  rw [if_pos h0]

/-- Unfolding `findScan` on a head of entropy strictly below the running
minimum. -/
lemma findScan_cons_lt {c : C} (rest : List C) (low : Nat) (cands res : List C)
    (h0 : ¬ entropy (assign c) = 0) (h1 : entropy (assign c) < low) :
    findScan entropy assign (c :: rest) low cands res =
      findScan entropy assign rest (entropy (assign c)) [c] res := by
  simp only [findScan]
  rw [if_neg h0, if_pos h1]

/-- Unfolding `findScan` on a head of entropy equal to the running
minimum. -/
lemma findScan_cons_eq {c : C} (rest : List C) (low : Nat) (cands res : List C)
    (h0 : ¬ entropy (assign c) = 0) (h1 : ¬ entropy (assign c) < low)
    (h2 : entropy (assign c) = low) :
    findScan entropy assign (c :: rest) low cands res =
      findScan entropy assign rest low (cands ++ [c]) res := by
  simp only [findScan]
  rw [if_neg h0, if_neg h1, if_pos h2]

/-- Unfolding `findScan` on a head of entropy strictly above the running
minimum. -/
lemma findScan_cons_gt {c : C} (rest : List C) (low : Nat) (cands res : List C)
    (h0 : ¬ entropy (assign c) = 0) (h1 : ¬ entropy (assign c) < low)
    (h2 : ¬ entropy (assign c) = low) :
    findScan entropy assign (c :: rest) low cands res =
      findScan entropy assign rest low cands res := by
  simp only [findScan]
  rw [if_neg h0, if_neg h1, if_neg h2]

/-- The resolved list accumulated by `findScan` is exactly the scanned
coordinates of entropy 0, appended in scan order. -/
lemma findScan_res (l : List C) : ∀ (low : Nat) (cands res : List C),
    (findScan entropy assign l low cands res).2.2 =
      res ++ l.filter (fun x => decide (entropy (assign x) = 0)) := by
  induction l with
  | nil => intro low cands res; simp [findScan]
  | cons c rest ih =>
    intro low cands res
    by_cases h0 : entropy (assign c) = 0
    · rw [findScan_cons_zero entropy assign rest low cands res h0, ih]
      simp [h0]
    · by_cases h1 : entropy (assign c) < low
      · rw [findScan_cons_lt entropy assign rest low cands res h0 h1, ih]
        simp [h0]
      · by_cases h2 : entropy (assign c) = low
        · rw [findScan_cons_eq entropy assign rest low cands res h0 h1 h2, ih]
          simp [h0]
        · rw [findScan_cons_gt entropy assign rest low cands res h0 h1 h2, ih]
          simp [h0]

/-- The running minimum of `findScan` stays positive, never increases,
and lower-bounds every positive entropy in the scanned list. -/
lemma findScan_low (l : List C) : ∀ (low : Nat) (cands res : List C), 0 < low →
    0 < (findScan entropy assign l low cands res).1 ∧
    (findScan entropy assign l low cands res).1 ≤ low ∧
    (∀ x ∈ l, 0 < entropy (assign x) →
      (findScan entropy assign l low cands res).1 ≤ entropy (assign x)) := by
  induction l with
  | nil => intro low cands res hlow; simpa [findScan] using hlow
  | cons c rest ih =>
    intro low cands res hlow
    by_cases h0 : entropy (assign c) = 0
    · rw [findScan_cons_zero entropy assign rest low cands res h0]
      have := ih low cands (res ++ [c]) hlow
      refine ⟨this.1, this.2.1, ?_⟩
      intro x hx hpos
      rcases List.mem_cons.mp hx with rfl | hx
      · omega
      · exact this.2.2 x hx hpos
    · by_cases h1 : entropy (assign c) < low
      · rw [findScan_cons_lt entropy assign rest low cands res h0 h1]
        have hpos : 0 < entropy (assign c) := Nat.pos_of_ne_zero h0
        have := ih (entropy (assign c)) [c] res hpos
        refine ⟨this.1, le_trans this.2.1 (le_of_lt h1), ?_⟩
        intro x hx hp
        rcases List.mem_cons.mp hx with rfl | hx
        · exact this.2.1
        · exact this.2.2 x hx hp
      · by_cases h2 : entropy (assign c) = low
        · rw [findScan_cons_eq entropy assign rest low cands res h0 h1 h2]
          have := ih low (cands ++ [c]) res hlow
          refine ⟨this.1, this.2.1, ?_⟩
          intro x hx hp
          rcases List.mem_cons.mp hx with rfl | hx
          · rw [h2]; exact this.2.1
          · exact this.2.2 x hx hp
        · rw [findScan_cons_gt entropy assign rest low cands res h0 h1 h2]
          have := ih low cands res hlow
          have hgt : low < entropy (assign c) := by omega
          refine ⟨this.1, this.2.1, ?_⟩
          intro x hx hp
          rcases List.mem_cons.mp hx with rfl | hx
          · exact le_trans this.2.1 (le_of_lt hgt)
          · exact this.2.2 x hx hp

/-- The candidate list built by `findScan` consists of exactly the
coordinates (among the initial candidates and the scanned list, in order)
whose entropy equals the final running minimum. -/
lemma findScan_cands (l : List C) : ∀ (low : Nat) (cands res : List C), 0 < low →
    (∀ x ∈ cands, entropy (assign x) = low) →
    (findScan entropy assign l low cands res).2.1 =
      (cands ++ l).filter
        (fun x =>
          decide (entropy (assign x) = (findScan entropy assign l low cands res).1)) := by
  induction l with
  | nil =>
    intro low cands res hlow hc
    simp only [findScan, List.append_nil]
    exact (List.filter_eq_self.mpr (fun a ha => by simp [hc a ha])).symm
  | cons c rest ih =>
    intro low cands res hlow hc
    by_cases h0 : entropy (assign c) = 0
    · rw [findScan_cons_zero entropy assign rest low cands res h0,
        ih low cands (res ++ [c]) hlow hc]
      have hpos := (findScan_low entropy assign rest low cands (res ++ [c]) hlow).1
      rw [List.filter_append, List.filter_append,
        List.filter_cons_of_neg (by simp only [decide_eq_true_eq]; omega)]
    · by_cases h1 : entropy (assign c) < low
      · have hpos : 0 < entropy (assign c) := Nat.pos_of_ne_zero h0
        rw [findScan_cons_lt entropy assign rest low cands res h0 h1,
          ih (entropy (assign c)) [c] res hpos (by simp)]
        have hle :=
          (findScan_low entropy assign rest (entropy (assign c)) [c] res hpos).2.1
        have hnil : cands.filter
            (fun x => decide (entropy (assign x) =
              (findScan entropy assign rest (entropy (assign c)) [c] res).1)) = [] :=
          List.filter_eq_nil_iff.mpr (fun a ha => by
            simp only [decide_eq_true_eq]
            have := hc a ha
            omega)
        conv_rhs => rw [List.filter_append, hnil]
        simp
      · by_cases h2 : entropy (assign c) = low
        · rw [findScan_cons_eq entropy assign rest low cands res h0 h1 h2,
            ih low (cands ++ [c]) res hlow (by
              intro x hx
              rcases List.mem_append.mp hx with hx | hx
              · exact hc x hx
              · rw [List.mem_singleton.mp hx]; exact h2)]
          simp [List.append_assoc]
        · rw [findScan_cons_gt entropy assign rest low cands res h0 h1 h2,
            ih low cands res hlow hc]
          have hle := (findScan_low entropy assign rest low cands res hlow).2.1
          rw [List.filter_append, List.filter_append,
            List.filter_cons_of_neg (by simp only [decide_eq_true_eq]; omega)]

/-- If `findScan` ends with an empty candidate list then it started with an
empty candidate list and every scanned coordinate has entropy 0 (given
that all entropies fit in `u32`). -/
lemma findScan_cands_nil (l : List C) : ∀ (low : Nat) (cands res : List C), 0 < low →
    low ≤ UINT32_MAX →
    (cands = [] → low = UINT32_MAX) →
    (∀ x ∈ l, entropy (assign x) ≤ UINT32_MAX) →
    (findScan entropy assign l low cands res).2.1 = [] →
    cands = [] ∧ ∀ x ∈ l, entropy (assign x) = 0 := by
  induction l with
  | nil =>
    intro low cands res _ _ _ _ hF
    simp only [findScan] at hF
    exact ⟨hF, by simp⟩
  | cons c rest ih =>
    intro low cands res hlow hle hemp hmax hF
    by_cases h0 : entropy (assign c) = 0
    · rw [findScan_cons_zero entropy assign rest low cands res h0] at hF
      have := ih low cands (res ++ [c]) hlow hle hemp
        (fun x hx => hmax x (List.mem_cons_of_mem c hx)) hF
      refine ⟨this.1, ?_⟩
      intro x hx
      rcases List.mem_cons.mp hx with rfl | hx
      · exact h0
      · exact this.2 x hx
    · by_cases h1 : entropy (assign c) < low
      · rw [findScan_cons_lt entropy assign rest low cands res h0 h1] at hF
        have hpos : 0 < entropy (assign c) := Nat.pos_of_ne_zero h0
        have := ih (entropy (assign c)) [c] res hpos
          (hmax c (List.mem_cons_self c rest)) (fun h => absurd h (by simp))
          (fun x hx => hmax x (List.mem_cons_of_mem c hx)) hF
        exact absurd this.1 (by simp)
      · by_cases h2 : entropy (assign c) = low
        · rw [findScan_cons_eq entropy assign rest low cands res h0 h1 h2] at hF
          have := ih low (cands ++ [c]) res hlow hle (fun h => absurd h (by simp))
            (fun x hx => hmax x (List.mem_cons_of_mem c hx)) hF
          exact absurd this.1 (by simp)
        · by_cases hcs : cands = []
          · have hlM := hemp hcs
            have hcM := hmax c (List.mem_cons_self c rest)
            omega
          · rw [findScan_cons_gt entropy assign rest low cands res h0 h1 h2] at hF
            have := ih low cands res hlow hle hemp
              (fun x hx => hmax x (List.mem_cons_of_mem c hx)) hF
            exact absurd this.1 hcs

end FindLemmas

lemma UINT32_MAX_pos : 0 < UINT32_MAX := by norm_num [UINT32_MAX]

section FindNextLemmas

variable {C St : Type} [DecidableEq C] (entropy : St → Nat) (assign : C → St)

/-- The unresolved set returned by `find_next_to_collapse` retains exactly
the members whose entropy is nonzero: the `retain` call removes the
coordinates collected in the resolved scratch set and nothing else. -/
lemma find_snd (u : List C) (r : Nat) :
    (find_next_to_collapse entropy assign u r).2 =
      u.filter (fun x => decide (¬ entropy (assign x) = 0)) := by
  have hdef : (find_next_to_collapse entropy assign u r).2 =
      u.filter (fun x =>
        decide (¬ x ∈ (findScan entropy assign u UINT32_MAX [] []).2.2)) := rfl
  have hres : (findScan entropy assign u UINT32_MAX [] []).2.2 =
      u.filter (fun x => decide (entropy (assign x) = 0)) := by
    simpa using findScan_res entropy assign u UINT32_MAX [] []
  rw [hdef, hres]
  refine List.filter_congr ?_
  intro x hx
  simp [List.mem_filter, hx]

/-- The selection of `find_next_to_collapse` as a match on the candidate
list of the scan. -/
lemma find_fst_eq (u : List C) (r : Nat) :
    (find_next_to_collapse entropy assign u r).1 =
      (match (findScan entropy assign u UINT32_MAX [] []).2.1 with
       | [] => none
       | a :: tail => some ((a :: tail).getD (r % (a :: tail).length) a)) := rfl

/-- `find_next_to_collapse` returns no candidate exactly when every member
of the unresolved set has entropy 0 (entropies fit in `u32`). -/
lemma find_fst_none_iff (u : List C) (r : Nat)
    (hmax : ∀ x ∈ u, entropy (assign x) ≤ UINT32_MAX) :
    (find_next_to_collapse entropy assign u r).1 = none ↔
      ∀ x ∈ u, entropy (assign x) = 0 := by
  rw [find_fst_eq]
  rcases hsc : (findScan entropy assign u UINT32_MAX [] []).2.1 with _ | ⟨a, t⟩
  · simp only [iff_true_intro rfl, true_iff]
    exact (findScan_cands_nil entropy assign u UINT32_MAX [] [] UINT32_MAX_pos
      le_rfl (fun _ => rfl) hmax hsc).2
  · simp only []
    constructor
    · intro h; exact absurd h (by simp)
    · intro hall
      have hch := findScan_cands entropy assign u UINT32_MAX [] []
        UINT32_MAX_pos (by simp)
      rw [hsc] at hch
      have ha : a ∈ List.filter (fun x =>
          decide (entropy (assign x) =
            (findScan entropy assign u UINT32_MAX [] []).1)) ([] ++ u) := by
        rw [← hch]; exact List.mem_cons_self a t
      have hmem := List.mem_filter.mp ha
      have hpos := (findScan_low entropy assign u UINT32_MAX [] []
        UINT32_MAX_pos).1
      have := hall a (by simpa using hmem.1)
      simp only [decide_eq_true_eq] at hmem
      omega

/-- A candidate returned by `find_next_to_collapse` is an unresolved
coordinate of positive entropy, minimal among all positive entropies of
the unresolved set. -/
lemma find_fst_some (u : List C) (r : Nat) (c : C)
    (h : (find_next_to_collapse entropy assign u r).1 = some c) :
    c ∈ u ∧ 0 < entropy (assign c) ∧
      ∀ x ∈ u, 0 < entropy (assign x) →
        entropy (assign c) ≤ entropy (assign x) := by
  rw [find_fst_eq] at h
  rcases hsc : (findScan entropy assign u UINT32_MAX [] []).2.1 with _ | ⟨a, t⟩
  · rw [hsc] at h; exact absurd h (by simp)
  · rw [hsc] at h
    simp only [Option.some.injEq] at h
    have hlen : r % (a :: t).length < (a :: t).length :=
      Nat.mod_lt _ (by simp)
    have hcm : c ∈ a :: t := by
      rw [← h, List.getD_eq_getElem (a :: t) a hlen]
      exact List.getElem_mem hlen
    have hch := findScan_cands entropy assign u UINT32_MAX [] []
      UINT32_MAX_pos (by simp)
    rw [hsc] at hch
    have hcf : c ∈ List.filter (fun x =>
        decide (entropy (assign x) =
          (findScan entropy assign u UINT32_MAX [] []).1)) ([] ++ u) := by
      rw [← hch]; exact hcm
    have hmem := List.mem_filter.mp hcf
    have hlow := findScan_low entropy assign u UINT32_MAX [] [] UINT32_MAX_pos
    simp only [decide_eq_true_eq] at hmem
    refine ⟨by simpa using hmem.1, ?_, ?_⟩
    · rw [hmem.2]; exact hlow.1
    · intro x hx hxpos
      rw [hmem.2]
      exact hlow.2.2 x hx hxpos

end FindNextLemmas

/-- The state produced by the `rule.collapse` call of one propagation
step: the popped cell's state collapsed against the snapshot of its
neighbors. -/
def propNewState {C D St : Type} (rule : CollapseRule D St) (nb : C → D → Option C)
    (assign : C → St) (c : C) : St :=
  rule.collapse (assign c) (snapshot assign (neighborCoords nb rule.neighbor_offsets c))

/-- The neighbors re-enqueued after a shrinking propagation step: the
present neighbors of the popped cell whose entropy (after the cell's
update) is nonzero, in offset order. -/
def propEnqueue {C D St : Type} [DecidableEq C] (rule : CollapseRule D St)
    (nb : C → D → Option C) (entropy : St → Nat) (assign : C → St) (c : C) : List C :=
  ((neighborCoords nb rule.neighbor_offsets c).filterMap id).filter
    (fun n => decide (¬ entropy
      (Function.update assign c (propNewState rule nb assign c) n) = 0))

section PropLemmas

variable {C D St : Type} [DecidableEq C]
variable (rule : CollapseRule D St) (nb : C → D → Option C) (entropy : St → Nat)

/-- A propagation step on a resolved cell does nothing: no rule call, no
state change, no enqueue. -/
lemma propStep_zero (assign : C → St) (c : C) (q : List C)
    (h : entropy (assign c) = 0) :
    propStep rule nb entropy assign c q = (assign, q, 0) := by
  simp only [propStep]
  rw [if_pos h]

/-- A propagation step on an unresolved cell that shrinks: the cell is
updated with the collapsed state and the eligible neighbors are pushed on
the back of the queue; one rule call is made. -/
lemma propStep_pos_shrink (assign : C → St) (c : C) (q : List C)
    (h : ¬ entropy (assign c) = 0)
    (hlt : entropy (propNewState rule nb assign c) < entropy (assign c)) :
    propStep rule nb entropy assign c q =
      (Function.update assign c (propNewState rule nb assign c),
        q ++ propEnqueue rule nb entropy assign c, 1) := by
  simp only [propNewState] at hlt
  simp only [propStep, propNewState, propEnqueue]
  rw [if_neg h, if_pos hlt]

/-- A propagation step on an unresolved cell that does not shrink: the
cell is updated (with an entropy-preserving state) and nothing is
enqueued; one rule call is made. -/
lemma propStep_pos_noshrink (assign : C → St) (c : C) (q : List C)
    (h : ¬ entropy (assign c) = 0)
    (hge : ¬ entropy (propNewState rule nb assign c) < entropy (assign c)) :
    propStep rule nb entropy assign c q =
      (Function.update assign c (propNewState rule nb assign c), q, 1) := by
  simp only [propNewState] at hge
  simp only [propStep, propNewState, propEnqueue]
  rw [if_neg h, if_neg hge]

/-- Under a monotone rule the state after a propagation step has pointwise
no larger entropy. -/
lemma propStep_entropy_le
    (Hmono : ∀ s ns, entropy (rule.collapse s ns) ≤ entropy s)
    (assign : C → St) (c : C) (q : List C) (x : C) :
    entropy ((propStep rule nb entropy assign c q).1 x) ≤ entropy (assign x) := by
  by_cases h : entropy (assign c) = 0
  · rw [propStep_zero rule nb entropy assign c q h]
  · have hupd : (propStep rule nb entropy assign c q).1 =
        Function.update assign c (propNewState rule nb assign c) := by
      by_cases hlt : entropy (propNewState rule nb assign c) < entropy (assign c)
      · rw [propStep_pos_shrink rule nb entropy assign c q h hlt]
      · rw [propStep_pos_noshrink rule nb entropy assign c q h hlt]
    rw [hupd]
    by_cases hx : x = c
    · subst hx
      rw [Function.update_same]
      exact Hmono _ _
    · rw [Function.update_noteq hx]

/-- A propagation step never introduces queue elements from outside the
space. -/
lemma propStep_queue_subset (coords : List C)
    (Hnb : ∀ (c : C) (d : D) (c' : C), nb c d = some c' → c' ∈ coords)
    (assign : C → St) (c : C) (q : List C) (hq : ∀ x ∈ q, x ∈ coords) :
    ∀ x ∈ (propStep rule nb entropy assign c q).2.1, x ∈ coords := by
  have henq : ∀ x ∈ propEnqueue rule nb entropy assign c, x ∈ coords := by
    intro x hx
    have hx1 := List.mem_filter.mp hx
    have hx2 := List.mem_filterMap.mp hx1.1
    rcases hx2 with ⟨o, ho, hox⟩
    rcases List.mem_map.mp ho with ⟨d, _, hd⟩
    exact Hnb c d x (by rw [hd]; exact hox)
  by_cases h : entropy (assign c) = 0
  · rw [propStep_zero rule nb entropy assign c q h]; exact hq
  · by_cases hlt : entropy (propNewState rule nb assign c) < entropy (assign c)
    · rw [propStep_pos_shrink rule nb entropy assign c q h hlt]
      intro x hx
      rcases List.mem_append.mp hx with hx | hx
      · exact hq x hx
      · exact henq x hx
    · rw [propStep_pos_noshrink rule nb entropy assign c q h hlt]
      exact hq

end PropLemmas

section MeasureLemmas

variable {C D St : Type} [DecidableEq C]
variable (rule : CollapseRule D St) (nb : C → D → Option C) (entropy : St → Nat)

/-- Total entropy is monotone under pointwise entropy decrease. -/
lemma totalEntropy_le (coords : List C) (a a' : C → St)
    (h : ∀ x, entropy (a' x) ≤ entropy (a x)) :
    totalEntropy entropy coords a' ≤ totalEntropy entropy coords a :=
  List.sum_le_sum (fun i _ => h i)

/-- Updating one cell of a duplicate-free space exchanges exactly that
cell's entropy contribution in the total. -/
lemma totalEntropy_update (coords : List C) (hnod : coords.Nodup) (c : C)
    (hc : c ∈ coords) (assign : C → St) (s : St) :
    totalEntropy entropy coords (Function.update assign c s) + entropy (assign c) =
      totalEntropy entropy coords assign + entropy s := by
  induction coords with
  | nil => cases hc
  | cons b l ih =>
    rcases List.mem_cons.mp hc with rfl | hc'
    · have hnl : ¬ c ∈ l := (List.nodup_cons.mp hnod).1
      have hmap : l.map (fun x => entropy (Function.update assign c s x)) =
          l.map (fun x => entropy (assign x)) := by
        refine List.map_congr_left ?_
        intro x hx
        have hxa : x ≠ c := by rintro rfl; exact hnl hx
        rw [Function.update_noteq hxa]
      simp only [totalEntropy, List.map_cons, List.sum_cons, Function.update_same, hmap]
      omega
    · have hne : b ≠ c := by rintro rfl; exact (List.nodup_cons.mp hnod).1 hc'
      have := ih (List.nodup_cons.mp hnod).2 hc'
      simp only [totalEntropy] at this
      simp only [totalEntropy, List.map_cons, List.sum_cons,
        Function.update_noteq hne]
      omega

/-- One propagation step strictly decreases the termination measure,
under a monotone rule, when the popped cell lies in the space. -/
lemma propStep_measure_lt (coords : List C) (hnod : coords.Nodup)
    (Hmono : ∀ s ns, entropy (rule.collapse s ns) ≤ entropy s)
    (assign : C → St) (c : C) (q : List C) (hc : c ∈ coords) :
    propMeasure rule entropy coords (propStep rule nb entropy assign c q).1
        (propStep rule nb entropy assign c q).2.1 <
      propMeasure rule entropy coords assign (c :: q) := by
  by_cases h : entropy (assign c) = 0
  · rw [propStep_zero rule nb entropy assign c q h]
    simp only [propMeasure, List.length_cons]
    omega
  · by_cases hlt : entropy (propNewState rule nb assign c) < entropy (assign c)
    · rw [propStep_pos_shrink rule nb entropy assign c q h hlt]
      have hupd := totalEntropy_update entropy coords hnod c hc assign
        (propNewState rule nb assign c)
      have henq : (propEnqueue rule nb entropy assign c).length ≤
          rule.neighbor_offsets.length := by
        refine le_trans (List.length_filter_le _ _) ?_
        refine le_trans (List.length_filterMap_le _ _) ?_
        simp [neighborCoords]
      have hE : totalEntropy entropy coords
            (Function.update assign c (propNewState rule nb assign c)) + 1 ≤
          totalEntropy entropy coords assign := by omega
      have hW : (rule.neighbor_offsets.length + 1) *
            (totalEntropy entropy coords
              (Function.update assign c (propNewState rule nb assign c)) + 1) ≤
          (rule.neighbor_offsets.length + 1) * totalEntropy entropy coords assign :=
        Nat.mul_le_mul_left _ hE
      rw [Nat.mul_add, Nat.mul_one] at hW
      simp only [propMeasure, List.length_cons, List.length_append]
      omega
    · rw [propStep_pos_noshrink rule nb entropy assign c q h hlt]
      have hpt : ∀ x, entropy (Function.update assign c
            (propNewState rule nb assign c) x) ≤ entropy (assign x) := by
        intro x
        by_cases hx : x = c
        · subst hx; rw [Function.update_same]; exact Hmono _ _
        · rw [Function.update_noteq hx]
      have hE := totalEntropy_le entropy coords assign _ hpt
      have hW : (rule.neighbor_offsets.length + 1) *
            totalEntropy entropy coords
              (Function.update assign c (propNewState rule nb assign c)) ≤
          (rule.neighbor_offsets.length + 1) * totalEntropy entropy coords assign :=
        Nat.mul_le_mul_left _ hE
      simp only [propMeasure, List.length_cons]
      omega

end MeasureLemmas

section RunPropLemmas

variable {C D St : Type} [DecidableEq C]
variable (rule : CollapseRule D St) (nb : C → D → Option C) (entropy : St → Nat)

/-- `run_propagation` on an empty queue returns at once. -/
lemma run_propagation_nil (fuel : Nat) (assign : C → St) (k : Nat) :
    run_propagation rule nb entropy fuel assign [] k = some (assign, k) := by
  cases fuel <;> rfl

/-- `run_propagation` with fuel left processes the queue head with
`propStep` and continues. -/
lemma run_propagation_cons (fuel : Nat) (assign : C → St) (c : C) (q : List C)
    (k : Nat) :
    run_propagation rule nb entropy (fuel + 1) assign (c :: q) k =
      run_propagation rule nb entropy fuel
        (propStep rule nb entropy assign c q).1
        (propStep rule nb entropy assign c q).2.1
        (k + (propStep rule nb entropy assign c q).2.2) := rfl

/-- Whenever `run_propagation` completes under a monotone rule, every
cell's entropy has pointwise not increased. -/
lemma run_propagation_entropy_le
    (Hmono : ∀ s ns, entropy (rule.collapse s ns) ≤ entropy s) :
    ∀ (fuel : Nat) (assign : C → St) (q : List C) (k : Nat) (a' : C → St) (k' : Nat),
      run_propagation rule nb entropy fuel assign q k = some (a', k') →
      ∀ x, entropy (a' x) ≤ entropy (assign x) := by
  intro fuel
  induction fuel with
  | zero =>
    intro assign q k a' k' h x
    cases q with
    | nil =>
      rw [run_propagation_nil] at h
      simp only [Option.some.injEq, Prod.mk.injEq] at h
      rw [← h.1]
    | cons c t => simp [run_propagation] at h
  | succ n ih =>
    intro assign q k a' k' h x
    cases q with
    | nil =>
      rw [run_propagation_nil] at h
      simp only [Option.some.injEq, Prod.mk.injEq] at h
      rw [← h.1]
    | cons c t =>
      rw [run_propagation_cons] at h
      exact le_trans (ih _ _ _ _ _ h x)
        (propStep_entropy_le rule nb entropy Hmono assign c t x)

/-- With fuel at least the termination measure, `run_propagation`
completes (monotone rule, queue inside the duplicate-free space), and
entropies pointwise do not increase. -/
lemma run_propagation_some (coords : List C) (hnod : coords.Nodup)
    (Hmono : ∀ s ns, entropy (rule.collapse s ns) ≤ entropy s)
    (Hnb : ∀ (c : C) (d : D) (c' : C), nb c d = some c' → c' ∈ coords) :
    ∀ (fuel : Nat) (assign : C → St) (q : List C) (k : Nat),
      (∀ x ∈ q, x ∈ coords) →
      propMeasure rule entropy coords assign q ≤ fuel →
      ∃ a' k', run_propagation rule nb entropy fuel assign q k = some (a', k') ∧
        ∀ x, entropy (a' x) ≤ entropy (assign x) := by
  intro fuel
  induction fuel with
  | zero =>
    intro assign q k hq hm
    cases q with
    | nil =>
      exact ⟨assign, k, run_propagation_nil rule nb entropy 0 assign k,
        fun x => le_rfl⟩
    | cons c t =>
      exfalso
      simp only [propMeasure, List.length_cons, Nat.le_zero] at hm
      omega
  | succ n ih =>
    intro assign q k hq hm
    cases q with
    | nil =>
      exact ⟨assign, k, run_propagation_nil rule nb entropy (n + 1) assign k,
        fun x => le_rfl⟩
    | cons c t =>
      have hc : c ∈ coords := hq c (List.mem_cons_self c t)
      have hlt := propStep_measure_lt rule nb entropy coords hnod Hmono assign c t hc
      have hsub := propStep_queue_subset rule nb entropy coords Hnb assign c t
        (fun x hx => hq x (List.mem_cons_of_mem c hx))
      have hple := propStep_entropy_le rule nb entropy Hmono assign c t
      obtain ⟨a', k', hrun, hle⟩ := ih (propStep rule nb entropy assign c t).1
        (propStep rule nb entropy assign c t).2.1
        (k + (propStep rule nb entropy assign c t).2.2) hsub (by omega)
      refine ⟨a', k', ?_, fun x => le_trans (hle x) (hple x)⟩
      rw [run_propagation_cons]
      exact hrun

end RunPropLemmas

section ObserveLemmas

variable {C D St : Type} [DecidableEq C]
variable (rule : CollapseRule D St) (nb : C → D → Option C) (entropy : St → Nat)

/-- The assignment after the observation step updates only the observed
cell, with the state chosen by `rule.observe` from the neighbor
snapshot. -/
lemma observeStep_fst (assign : C → St) (c : C) :
    (observeStep rule nb entropy assign c).1 =
      Function.update assign c (rule.observe (assign c)
        (snapshot assign (neighborCoords nb rule.neighbor_offsets c))) := rfl

/-- The queue seeded after an observation consists of the present
neighbors of the observed cell, in offset order. -/
lemma observeStep_queue (assign : C → St) (c : C) :
    (observeStep rule nb entropy assign c).2.1 =
      (neighborCoords nb rule.neighbor_offsets c).filterMap id := rfl

/-- The recorded observation event: the observed coordinate and its
entropy at the moment of the call. -/
lemma observeStep_event (assign : C → St) (c : C) :
    (observeStep rule nb entropy assign c).2.2 = (c, entropy (assign c)) := rfl

/-- If `rule.observe` drives entropy to 0, the observation step pointwise
does not increase entropy. -/
lemma observeStep_entropy_le
    (Hobs : ∀ s ns, entropy (rule.observe s ns) = 0)
    (assign : C → St) (c : C) (x : C) :
    entropy ((observeStep rule nb entropy assign c).1 x) ≤ entropy (assign x) := by
  rw [observeStep_fst]
  by_cases hx : x = c
  · subst hx
    rw [Function.update_same, Hobs]
    exact Nat.zero_le _
  · rw [Function.update_noteq hx]

/-- If `rule.observe` drives entropy to 0, the observed cell is resolved
right after the observation step. -/
lemma observeStep_entropy_self
    (Hobs : ∀ s ns, entropy (rule.observe s ns) = 0)
    (assign : C → St) (c : C) :
    entropy ((observeStep rule nb entropy assign c).1 c) = 0 := by
  rw [observeStep_fst, Function.update_same, Hobs]

/-- The queue seeded by an observation stays inside the space. -/
lemma observeStep_queue_subset (coords : List C)
    (Hnb : ∀ (c : C) (d : D) (c' : C), nb c d = some c' → c' ∈ coords)
    (assign : C → St) (c : C) :
    ∀ x ∈ (observeStep rule nb entropy assign c).2.1, x ∈ coords := by
  rw [observeStep_queue]
  intro x hx
  rcases List.mem_filterMap.mp hx with ⟨o, ho, hox⟩
  rcases List.mem_map.mp ho with ⟨d, _, hd⟩
  exact Hnb c d x (by rw [hd]; exact hox)

/-- The seeded queue is no longer than the offset list. -/
lemma observeStep_queue_length (assign : C → St) (c : C) :
    (observeStep rule nb entropy assign c).2.1.length ≤
      rule.neighbor_offsets.length := by
  rw [observeStep_queue]
  refine le_trans (List.length_filterMap_le _ _) ?_
  simp [neighborCoords]

end ObserveLemmas

/-- Filtering with a pointwise weaker predicate yields no more
elements. -/
lemma length_filter_le_filter {α : Type} (l : List α) (p q : α → Bool)
    (hpq : ∀ x ∈ l, q x = true → p x = true) :
    (l.filter q).length ≤ (l.filter p).length := by
  induction l with
  | nil => simp
  | cons a t ih =>
    have iht := ih (fun x hx => hpq x (List.mem_cons_of_mem a hx))
    by_cases hq : q a = true
    · have hp := hpq a (List.mem_cons_self a t) hq
      rw [List.filter_cons_of_pos hq, List.filter_cons_of_pos hp]
      simpa using iht
    · rw [List.filter_cons_of_neg (by simpa using hq)]
      by_cases hp : p a = true
      · rw [List.filter_cons_of_pos hp]
        exact le_trans iht (by simp)
      · rw [List.filter_cons_of_neg (by simpa using hp)]
        exact iht

/-- Filtering with a pointwise weaker predicate that in addition loses a
definite member yields strictly fewer elements. -/
lemma length_filter_lt_filter {α : Type} (l : List α) (p q : α → Bool)
    (hpq : ∀ x ∈ l, q x = true → p x = true) (c : α) (hc : c ∈ l)
    (hp : p c = true) (hq : q c = false) :
    (l.filter q).length < (l.filter p).length := by
  induction l with
  | nil => cases hc
  | cons a t ih =>
    have hmono := length_filter_le_filter t p q
      (fun x hx => hpq x (List.mem_cons_of_mem a hx))
    rcases List.mem_cons.mp hc with rfl | hct
    · rw [List.filter_cons_of_neg (by simp [hq]), List.filter_cons_of_pos hp]
      simpa using Nat.lt_succ_of_le hmono
    · have iht := ih (fun x hx => hpq x (List.mem_cons_of_mem a hx)) hct
      by_cases hqa : q a = true
      · have hpa := hpq a (List.mem_cons_self a t) hqa
        rw [List.filter_cons_of_pos hqa, List.filter_cons_of_pos hpa]
        simpa using iht
      · rw [List.filter_cons_of_neg (by simpa using hqa)]
        by_cases hpa : p a = true
        · rw [List.filter_cons_of_pos hpa]
          exact lt_of_lt_of_le iht (by simp)
        · rw [List.filter_cons_of_neg (by simpa using hpa)]
          exact iht

section LoopLemmas

variable {C D St : Type} [DecidableEq C]
variable (rule : CollapseRule D St) (nb : C → D → Option C) (entropy : St → Nat)
variable (rng : Nat → Nat) (pfuel : Nat)

/-- The main loop terminates the run when the selection returns no
candidate; the unresolved set keeps the retain of that last call. -/
lemma collapseLoop_succ_none (fuel : Nat) (assign : C → St) (u : List C)
    (rix k : Nat) (evs : List (C × Nat))
    (hf : (find_next_to_collapse entropy assign u (rng rix)).1 = none) :
    collapseLoop rule nb entropy rng pfuel (fuel + 1) assign u rix k evs =
      some ⟨assign, (find_next_to_collapse entropy assign u (rng rix)).2,
        rix, k, evs⟩ := by
  simp only [collapseLoop, hf]

/-- The main loop on a selected candidate whose propagation completes:
observe it, propagate, and continue with one more random draw consumed
and the observation event recorded. -/
lemma collapseLoop_succ_some (fuel : Nat) (assign : C → St) (u : List C)
    (rix k : Nat) (evs : List (C × Nat)) (c : C)
    (hf : (find_next_to_collapse entropy assign u (rng rix)).1 = some c)
    (a' : C → St) (k' : Nat)
    (hrun : run_propagation rule nb entropy pfuel
        (observeStep rule nb entropy assign c).1
        (observeStep rule nb entropy assign c).2.1 k = some (a', k')) :
    collapseLoop rule nb entropy rng pfuel (fuel + 1) assign u rix k evs =
      collapseLoop rule nb entropy rng pfuel fuel a'
        (find_next_to_collapse entropy assign u (rng rix)).2 (rix + 1) k'
        (evs ++ [(observeStep rule nb entropy assign c).2.2]) := by
  simp only [collapseLoop, hf, hrun]

/-- The main loop on a selected candidate whose propagation runs out of
fuel fails. -/
lemma collapseLoop_succ_some_fail (fuel : Nat) (assign : C → St) (u : List C)
    (rix k : Nat) (evs : List (C × Nat)) (c : C)
    (hf : (find_next_to_collapse entropy assign u (rng rix)).1 = some c)
    (hrun : run_propagation rule nb entropy pfuel
        (observeStep rule nb entropy assign c).1
        (observeStep rule nb entropy assign c).2.1 k = none) :
    collapseLoop rule nb entropy rng pfuel (fuel + 1) assign u rix k evs =
      none := by
  simp only [collapseLoop, hf, hrun]

end LoopLemmas

section LoopSpec

variable {C D St : Type} [DecidableEq C]
variable (rule : CollapseRule D St) (nb : C → D → Option C) (entropy : St → Nat)
variable (rng : Nat → Nat) (pfuel : Nat)

/-- Master property of a completed main loop (monotone rule, observation
drives entropy to 0, `u32`-bounded entropies, and every positive-entropy
coordinate of the space tracked by the unresolved set): at return every
cell of the space is resolved, entropies pointwise did not increase, and
the recorded observation events extend the accumulator with pairwise
distinct coordinates observed at positive entropy no larger than their
entry entropy, each resolved at return. -/
lemma collapseLoop_some_spec (coords : List C)
    (Hmono : ∀ s ns, entropy (rule.collapse s ns) ≤ entropy s)
    (Hobs : ∀ s ns, entropy (rule.observe s ns) = 0)
    (Hs : ∀ s, entropy s ≤ UINT32_MAX) :
    ∀ (fuel : Nat) (assign : C → St) (u : List C) (rix k : Nat)
      (evs : List (C × Nat)) (res : CollapseResult C St),
      (∀ x ∈ coords, 0 < entropy (assign x) → x ∈ u) →
      (∀ x ∈ u, x ∈ coords) →
      collapseLoop rule nb entropy rng pfuel fuel assign u rix k evs = some res →
      (∀ x ∈ coords, entropy (res.assign x) = 0) ∧
      (∀ x, entropy (res.assign x) ≤ entropy (assign x)) ∧
      ∃ newEvs : List (C × Nat), res.events = evs ++ newEvs ∧
        (newEvs.map Prod.fst).Nodup ∧
        ∀ ce ∈ newEvs, ce.1 ∈ coords ∧ 0 < ce.2 ∧
          ce.2 ≤ entropy (assign ce.1) ∧ entropy (res.assign ce.1) = 0 := by
  intro fuel
  induction fuel with
  | zero =>
    intro assign u rix k evs res _ _ h
    simp [collapseLoop] at h
  | succ n ih =>
    intro assign u rix k evs res hinv hsub h
    rcases hf : (find_next_to_collapse entropy assign u (rng rix)).1 with _ | c
    · rw [collapseLoop_succ_none rule nb entropy rng pfuel n assign u rix k evs hf]
        at h
      have hz := (find_fst_none_iff entropy assign u (rng rix)
        (fun x _ => Hs (assign x))).mp hf
      injection h with h'
      subst h'
      refine ⟨?_, fun x => le_rfl, ⟨[], by simp, by simp, by simp⟩⟩
      intro x hx
      by_contra hne
      have hpos : 0 < entropy (assign x) := Nat.pos_of_ne_zero hne
      exact hne (hz x (hinv x hx hpos))
    · rcases hrun : run_propagation rule nb entropy pfuel
          (observeStep rule nb entropy assign c).1
          (observeStep rule nb entropy assign c).2.1 k with _ | ⟨a', k'⟩
      · rw [collapseLoop_succ_some_fail rule nb entropy rng pfuel n assign u
          rix k evs c hf hrun] at h
        exact absurd h (by simp)
      · rw [collapseLoop_succ_some rule nb entropy rng pfuel n assign u
          rix k evs c hf a' k' hrun] at h
        have hfind := find_fst_some entropy assign u (rng rix) c hf
        have hsnd := find_snd entropy assign u (rng rix)
        have hob_le := observeStep_entropy_le rule nb entropy Hobs assign c
        have hprop_le := run_propagation_entropy_le rule nb entropy Hmono
          pfuel _ _ k a' k' hrun
        have ha'_le : ∀ x, entropy (a' x) ≤ entropy (assign x) :=
          fun x => le_trans (hprop_le x) (hob_le x)
        have ha'_c : entropy (a' c) = 0 :=
          Nat.le_zero.mp (le_trans (hprop_le c)
            (le_of_eq (observeStep_entropy_self rule nb entropy Hobs assign c)))
        have hinv' : ∀ x ∈ coords, 0 < entropy (a' x) →
            x ∈ (find_next_to_collapse entropy assign u (rng rix)).2 := by
          intro x hx hpos
          have hpos0 : 0 < entropy (assign x) := lt_of_lt_of_le hpos (ha'_le x)
          rw [hsnd]
          refine List.mem_filter.mpr ⟨hinv x hx hpos0, ?_⟩
          simp only [decide_eq_true_eq]
          omega
        have hsub' : ∀ x ∈ (find_next_to_collapse entropy assign u (rng rix)).2,
            x ∈ coords := by
          intro x hx
          rw [hsnd] at hx
          exact hsub x (List.mem_filter.mp hx).1
        obtain ⟨h1, h2, newEvs', hevs, hnodup, hprops⟩ :=
          ih a' _ (rix + 1) k' (evs ++ [(observeStep rule nb entropy assign c).2.2])
            res hinv' hsub' h
        refine ⟨h1, fun x => le_trans (h2 x) (ha'_le x),
          ⟨(c, entropy (assign c)) :: newEvs', ?_, ?_, ?_⟩⟩
        · rw [hevs, observeStep_event]
          simp
        · simp only [List.map_cons, List.nodup_cons]
          refine ⟨?_, hnodup⟩
          intro hmem
          rcases List.mem_map.mp hmem with ⟨ce, hce, hce1⟩
          have hp := hprops ce hce
          have hle := hp.2.2.1
          rw [hce1] at hle
          have hpos := hp.2.1
          omega
        · intro ce hce
          rcases List.mem_cons.mp hce with rfl | hce'
          · exact ⟨hsub c hfind.1, hfind.2.1, le_rfl, h1 c (hsub c hfind.1)⟩
          · obtain ⟨hcoord, hpos, hle, hzero⟩ := hprops ce hce'
            exact ⟨hcoord, hpos, le_trans hle (ha'_le ce.1), hzero⟩

end LoopSpec

section LoopTermination

variable {C D St : Type} [DecidableEq C]
variable (rule : CollapseRule D St) (nb : C → D → Option C) (entropy : St → Nat)
variable (rng : Nat → Nat) (pfuel : Nat)

/-- The main loop completes when given one more iteration of fuel than
the number of currently unresolved cells of the space, and per-iteration
propagation fuel covering the worst-case measure. -/
lemma collapseLoop_terminates (coords : List C) (hnod : coords.Nodup)
    (Hmono : ∀ s ns, entropy (rule.collapse s ns) ≤ entropy s)
    (Hobs : ∀ s ns, entropy (rule.observe s ns) = 0)
    (Hnb : ∀ (c : C) (d : D) (c' : C), nb c d = some c' → c' ∈ coords) :
    ∀ (fuel : Nat) (assign : C → St) (u : List C) (rix k : Nat)
      (evs : List (C × Nat)),
      (∀ x ∈ coords, 0 < entropy (assign x) → x ∈ u) →
      (∀ x ∈ u, x ∈ coords) →
      rule.neighbor_offsets.length + (rule.neighbor_offsets.length + 1) *
        totalEntropy entropy coords assign ≤ pfuel →
      (coords.filter (fun x => decide (0 < entropy (assign x)))).length < fuel →
      ∃ res, collapseLoop rule nb entropy rng pfuel fuel assign u rix k evs =
        some res := by
  intro fuel
  induction fuel with
  | zero =>
    intro assign u rix k evs _ _ _ hfuel
    omega
  | succ n ih =>
    intro assign u rix k evs hinv hsub hpf hfuel
    rcases hf : (find_next_to_collapse entropy assign u (rng rix)).1 with _ | c
    · exact ⟨_, collapseLoop_succ_none rule nb entropy rng pfuel n assign u
        rix k evs hf⟩
    · have hfind := find_fst_some entropy assign u (rng rix) c hf
      have hsnd := find_snd entropy assign u (rng rix)
      have hcc : c ∈ coords := hsub c hfind.1
      have hob_le := observeStep_entropy_le rule nb entropy Hobs assign c
      have hobE : totalEntropy entropy coords
          (observeStep rule nb entropy assign c).1 ≤
            totalEntropy entropy coords assign :=
        totalEntropy_le entropy coords assign _ hob_le
      have hqsub := observeStep_queue_subset rule nb entropy coords Hnb assign c
      have hqlen := observeStep_queue_length rule nb entropy assign c
      have hmeas : propMeasure rule entropy coords
          (observeStep rule nb entropy assign c).1
          (observeStep rule nb entropy assign c).2.1 ≤ pfuel := by
        simp only [propMeasure]
        have := Nat.mul_le_mul_left (rule.neighbor_offsets.length + 1) hobE
        omega
      obtain ⟨a', k', hrun, hprop_le⟩ := run_propagation_some rule nb entropy
        coords hnod Hmono Hnb pfuel (observeStep rule nb entropy assign c).1
        (observeStep rule nb entropy assign c).2.1 k hqsub hmeas
      have ha'_le : ∀ x, entropy (a' x) ≤ entropy (assign x) :=
        fun x => le_trans (hprop_le x) (hob_le x)
      have ha'_c : entropy (a' c) = 0 :=
        Nat.le_zero.mp (le_trans (hprop_le c)
          (le_of_eq (observeStep_entropy_self rule nb entropy Hobs assign c)))
      have hinv' : ∀ x ∈ coords, 0 < entropy (a' x) →
          x ∈ (find_next_to_collapse entropy assign u (rng rix)).2 := by
        intro x hx hpos
        have hpos0 : 0 < entropy (assign x) := lt_of_lt_of_le hpos (ha'_le x)
        rw [hsnd]
        refine List.mem_filter.mpr ⟨hinv x hx hpos0, ?_⟩
        simp only [decide_eq_true_eq]
        omega
      have hsub' : ∀ x ∈ (find_next_to_collapse entropy assign u (rng rix)).2,
          x ∈ coords := by
        intro x hx
        rw [hsnd] at hx
        exact hsub x (List.mem_filter.mp hx).1
      have hpf' : rule.neighbor_offsets.length + (rule.neighbor_offsets.length + 1) *
          totalEntropy entropy coords a' ≤ pfuel := by
        have hE := totalEntropy_le entropy coords assign a' ha'_le
        have := Nat.mul_le_mul_left (rule.neighbor_offsets.length + 1) hE
        omega
      have hfuel' : (coords.filter (fun x => decide (0 < entropy (a' x)))).length
          < n := by
        have hlt := length_filter_lt_filter coords
          (fun x => decide (0 < entropy (assign x)))
          (fun x => decide (0 < entropy (a' x)))
          (fun x _ hq => by
            simp only [decide_eq_true_eq] at hq ⊢
            exact lt_of_lt_of_le hq (ha'_le x))
          c hcc (by simp only [decide_eq_true_eq]; exact hfind.2.1)
          (by simp only [decide_eq_false_iff_not]; omega)
        omega
      obtain ⟨res, hres⟩ := ih a'
        (find_next_to_collapse entropy assign u (rng rix)).2 (rix + 1) k'
        (evs ++ [(observeStep rule nb entropy assign c).2.2]) hinv' hsub' hpf' hfuel'
      refine ⟨res, ?_⟩
      rw [collapseLoop_succ_some rule nb entropy rng pfuel n assign u rix k evs c
        hf a' k' hrun]
      exact hres

end LoopTermination

section CollapseLemmas

variable {C D St : Type} [DecidableEq C]
variable (rule : CollapseRule D St) (nb : C → D → Option C) (entropy : St → Nat)
variable (coords : List C) (rng : Nat → Nat)

/-- Every member of the seeded unresolved set is a coordinate of the
space. -/
lemma collapseInit_subset (assign : C → St) :
    ∀ x ∈ collapseInit entropy coords assign, x ∈ coords := by
  intro x hx
  exact (List.mem_filter.mp hx).1

/-- Every coordinate of positive entropy is seeded into the unresolved
set. -/
lemma collapseInit_mem (assign : C → St) (x : C) (hx : x ∈ coords)
    (hpos : 0 < entropy (assign x)) :
    x ∈ collapseInit entropy coords assign :=
  List.mem_filter.mpr ⟨hx, by simpa using hpos⟩

/-- `collapse` fails when the initial propagation runs out of fuel. -/
lemma collapse_eq_none (fuel pfuel : Nat) (assign : C → St)
    (hrun : run_propagation rule nb entropy pfuel assign
      (collapseInit entropy coords assign) 0 = none) :
    collapse rule nb entropy coords rng fuel pfuel assign = none := by
  simp only [collapse, hrun]

/-- `collapse` is the main loop run on the state left by the initial
propagation pass over the seeded queue. -/
lemma collapse_eq_some (fuel pfuel : Nat) (assign a1 : C → St) (k : Nat)
    (hrun : run_propagation rule nb entropy pfuel assign
      (collapseInit entropy coords assign) 0 = some (a1, k)) :
    collapse rule nb entropy coords rng fuel pfuel assign =
      collapseLoop rule nb entropy rng pfuel fuel a1
        (collapseInit entropy coords assign) 0 k [] := by
  simp only [collapse, hrun]

/-- Master property of any completed run of `collapse`: every cell of the
space is resolved, entropies pointwise did not increase, and the recorded
observation events name pairwise distinct coordinates, each observed at
positive entropy bounded by its initial entropy and resolved at return. -/
lemma collapse_some_spec
    (Hmono : ∀ s ns, entropy (rule.collapse s ns) ≤ entropy s)
    (Hobs : ∀ s ns, entropy (rule.observe s ns) = 0)
    (Hs : ∀ s, entropy s ≤ UINT32_MAX)
    (fuel pfuel : Nat) (assign : C → St) (res : CollapseResult C St)
    (h : collapse rule nb entropy coords rng fuel pfuel assign = some res) :
    (∀ x ∈ coords, entropy (res.assign x) = 0) ∧
    (∀ x, entropy (res.assign x) ≤ entropy (assign x)) ∧
    (res.events.map Prod.fst).Nodup ∧
    ∀ ce ∈ res.events, ce.1 ∈ coords ∧ 0 < ce.2 ∧
      ce.2 ≤ entropy (assign ce.1) ∧ entropy (res.assign ce.1) = 0 := by
  rcases hrun : run_propagation rule nb entropy pfuel assign
      (collapseInit entropy coords assign) 0 with _ | ⟨a1, k⟩
  · rw [collapse_eq_none rule nb entropy coords rng fuel pfuel assign hrun] at h
    exact absurd h (by simp)
  · rw [collapse_eq_some rule nb entropy coords rng fuel pfuel assign a1 k hrun]
      at h
    have hple := run_propagation_entropy_le rule nb entropy Hmono pfuel assign
      (collapseInit entropy coords assign) 0 a1 k hrun
    have hinv : ∀ x ∈ coords, 0 < entropy (a1 x) →
        x ∈ collapseInit entropy coords assign := by
      intro x hx hpos
      exact collapseInit_mem entropy coords assign x hx
        (lt_of_lt_of_le hpos (hple x))
    obtain ⟨h1, h2, newEvs, hevs, hnodup, hprops⟩ :=
      collapseLoop_some_spec rule nb entropy rng pfuel coords Hmono Hobs Hs
        fuel a1 (collapseInit entropy coords assign) 0 k [] res hinv
        (collapseInit_subset entropy coords assign) h
    have hevs' : res.events = newEvs := by simpa using hevs
    refine ⟨h1, fun x => le_trans (h2 x) (hple x), ?_, ?_⟩
    · rw [hevs']
      exact hnodup
    · intro ce hce
      rw [hevs'] at hce
      obtain ⟨hcoord, hpos, hle, hzero⟩ := hprops ce hce
      exact ⟨hcoord, hpos, le_trans hle (hple ce.1), hzero⟩

/-- `collapse` terminates: there is fuel for which the run completes. -/
lemma collapse_terminates (hnod : coords.Nodup)
    (Hmono : ∀ s ns, entropy (rule.collapse s ns) ≤ entropy s)
    (Hobs : ∀ s ns, entropy (rule.observe s ns) = 0)
    (Hnb : ∀ (c : C) (d : D) (c' : C), nb c d = some c' → c' ∈ coords)
    (assign : C → St) :
    ∃ fuel pfuel res,
      collapse rule nb entropy coords rng fuel pfuel assign = some res := by
  refine ⟨coords.length + 1,
    coords.length + rule.neighbor_offsets.length +
      (rule.neighbor_offsets.length + 1) * totalEntropy entropy coords assign,
    ?_⟩
  have hqsub := collapseInit_subset entropy coords assign
  have hqlen : (collapseInit entropy coords assign).length ≤ coords.length :=
    List.length_filter_le _ _
  have hmeas : propMeasure rule entropy coords assign
      (collapseInit entropy coords assign) ≤
      coords.length + rule.neighbor_offsets.length +
        (rule.neighbor_offsets.length + 1) * totalEntropy entropy coords assign := by
    simp only [propMeasure]
    omega
  obtain ⟨a1, k, hrun, hple⟩ := run_propagation_some rule nb entropy coords hnod
    Hmono Hnb _ assign (collapseInit entropy coords assign) 0 hqsub hmeas
  have hinv : ∀ x ∈ coords, 0 < entropy (a1 x) →
      x ∈ collapseInit entropy coords assign := by
    intro x hx hpos
    exact collapseInit_mem entropy coords assign x hx
      (lt_of_lt_of_le hpos (hple x))
  have hpf : rule.neighbor_offsets.length + (rule.neighbor_offsets.length + 1) *
      totalEntropy entropy coords a1 ≤
      coords.length + rule.neighbor_offsets.length +
        (rule.neighbor_offsets.length + 1) * totalEntropy entropy coords assign := by
    have hE := totalEntropy_le entropy coords assign a1 hple
    have := Nat.mul_le_mul_left (rule.neighbor_offsets.length + 1) hE
    omega
  have hfuel : (coords.filter (fun x => decide (0 < entropy (a1 x)))).length <
      coords.length + 1 :=
    Nat.lt_succ_of_le (List.length_filter_le _ _)
  obtain ⟨res, hres⟩ := collapseLoop_terminates rule nb entropy rng _ coords hnod
    Hmono Hobs Hnb (coords.length + 1) a1 (collapseInit entropy coords assign)
    0 k [] hinv hqsub hpf hfuel
  refine ⟨res, ?_⟩
  rw [collapse_eq_some rule nb entropy coords rng (coords.length + 1) _ assign
    a1 k hrun]
  exact hres

end CollapseLemmas

section EventsPos

variable {C D St : Type} [DecidableEq C]
variable (rule : CollapseRule D St) (nb : C → D → Option C) (entropy : St → Nat)
variable (rng : Nat → Nat) (pfuel : Nat)

/-- Independently of any assumption on the rule, every observation event
recorded by the main loop carries a positive entropy: the selection only
ever returns coordinates of positive entropy. -/
lemma collapseLoop_events_pos :
    ∀ (fuel : Nat) (assign : C → St) (u : List C) (rix k : Nat)
      (evs : List (C × Nat)) (res : CollapseResult C St),
      collapseLoop rule nb entropy rng pfuel fuel assign u rix k evs = some res →
      (∀ ce ∈ evs, 0 < ce.2) → ∀ ce ∈ res.events, 0 < ce.2 := by
  intro fuel
  induction fuel with
  | zero =>
    intro assign u rix k evs res h _
    simp [collapseLoop] at h
  | succ n ih =>
    intro assign u rix k evs res h hevs
    rcases hf : (find_next_to_collapse entropy assign u (rng rix)).1 with _ | c
    · rw [collapseLoop_succ_none rule nb entropy rng pfuel n assign u rix k evs hf]
        at h
      injection h with h'
      subst h'
      exact hevs
    · rcases hrun : run_propagation rule nb entropy pfuel
          (observeStep rule nb entropy assign c).1
          (observeStep rule nb entropy assign c).2.1 k with _ | ⟨a', k'⟩
      · rw [collapseLoop_succ_some_fail rule nb entropy rng pfuel n assign u
          rix k evs c hf hrun] at h
        exact absurd h (by simp)
      · rw [collapseLoop_succ_some rule nb entropy rng pfuel n assign u
          rix k evs c hf a' k' hrun] at h
        refine ih a' _ (rix + 1) k' _ res h ?_
        intro ce hce
        rcases List.mem_append.mp hce with hce | hce
        · exact hevs ce hce
        · rw [observeStep_event] at hce
          rw [List.mem_singleton.mp hce]
          exact (find_fst_some entropy assign u (rng rix) c hf).2.1

/-- Every observation event of a completed `collapse` run carries a
positive entropy, with no assumption on the rule. -/
lemma collapse_events_pos (coords : List C) (fuel pfuel : Nat)
    (assign : C → St) (res : CollapseResult C St)
    (h : collapse rule nb entropy coords rng fuel pfuel assign = some res) :
    ∀ ce ∈ res.events, 0 < ce.2 := by
  rcases hrun : run_propagation rule nb entropy pfuel assign
      (collapseInit entropy coords assign) 0 with _ | ⟨a1, k⟩
  · rw [collapse_eq_none rule nb entropy coords rng fuel pfuel assign hrun] at h
    exact absurd h (by simp)
  · rw [collapse_eq_some rule nb entropy coords rng fuel pfuel assign a1 k hrun]
      at h
    exact collapseLoop_events_pos rule nb entropy rng pfuel fuel a1
      (collapseInit entropy coords assign) 0 k [] res h (by simp)

end EventsPos

section LoopMono

variable {C D St : Type} [DecidableEq C]
variable (rule : CollapseRule D St) (nb : C → D → Option C) (entropy : St → Nat)
variable (rng : Nat → Nat) (pfuel : Nat)

/-- Under a monotone rule and a resolving observation, a completed main
loop pointwise does not increase any cell's entropy. -/
lemma collapseLoop_entropy_le
    (Hmono : ∀ s ns, entropy (rule.collapse s ns) ≤ entropy s)
    (Hobs : ∀ s ns, entropy (rule.observe s ns) = 0) :
    ∀ (fuel : Nat) (assign : C → St) (u : List C) (rix k : Nat)
      (evs : List (C × Nat)) (res : CollapseResult C St),
      collapseLoop rule nb entropy rng pfuel fuel assign u rix k evs = some res →
      ∀ x, entropy (res.assign x) ≤ entropy (assign x) := by
  intro fuel
  induction fuel with
  | zero =>
    intro assign u rix k evs res h
    simp [collapseLoop] at h
  | succ n ih =>
    intro assign u rix k evs res h x
    rcases hf : (find_next_to_collapse entropy assign u (rng rix)).1 with _ | c
    · rw [collapseLoop_succ_none rule nb entropy rng pfuel n assign u rix k evs hf]
        at h
      injection h with h'
      subst h'
      exact le_rfl
    · rcases hrun : run_propagation rule nb entropy pfuel
          (observeStep rule nb entropy assign c).1
          (observeStep rule nb entropy assign c).2.1 k with _ | ⟨a', k'⟩
      · rw [collapseLoop_succ_some_fail rule nb entropy rng pfuel n assign u
          rix k evs c hf hrun] at h
        exact absurd h (by simp)
      · rw [collapseLoop_succ_some rule nb entropy rng pfuel n assign u
          rix k evs c hf a' k' hrun] at h
        refine le_trans (ih a' _ (rix + 1) k' _ res h x) ?_
        refine le_trans (run_propagation_entropy_le rule nb entropy Hmono
          pfuel _ _ k a' k' hrun x) ?_
        exact observeStep_entropy_le rule nb entropy Hobs assign c x

/-- Under a monotone rule and a resolving observation, the main loop
preserves the invariant that every positive-entropy coordinate of the
space belongs to the unresolved set, through to the returned state. -/
lemma collapseLoop_inv (coords : List C)
    (Hmono : ∀ s ns, entropy (rule.collapse s ns) ≤ entropy s)
    (Hobs : ∀ s ns, entropy (rule.observe s ns) = 0) :
    ∀ (fuel : Nat) (assign : C → St) (u : List C) (rix k : Nat)
      (evs : List (C × Nat)) (res : CollapseResult C St),
      (∀ x ∈ coords, 0 < entropy (assign x) → x ∈ u) →
      collapseLoop rule nb entropy rng pfuel fuel assign u rix k evs = some res →
      ∀ x ∈ coords, 0 < entropy (res.assign x) → x ∈ res.unresolved := by
  intro fuel
  induction fuel with
  | zero =>
    intro assign u rix k evs res _ h
    simp [collapseLoop] at h
  | succ n ih =>
    intro assign u rix k evs res hinv h
    rcases hf : (find_next_to_collapse entropy assign u (rng rix)).1 with _ | c
    · rw [collapseLoop_succ_none rule nb entropy rng pfuel n assign u rix k evs hf]
        at h
      injection h with h'
      subst h'
      intro x hx hpos
      dsimp only at hpos ⊢
      rw [find_snd]
      refine List.mem_filter.mpr ⟨hinv x hx hpos, ?_⟩
      simp only [decide_eq_true_eq]
      omega
    · rcases hrun : run_propagation rule nb entropy pfuel
          (observeStep rule nb entropy assign c).1
          (observeStep rule nb entropy assign c).2.1 k with _ | ⟨a', k'⟩
      · rw [collapseLoop_succ_some_fail rule nb entropy rng pfuel n assign u
          rix k evs c hf hrun] at h
        exact absurd h (by simp)
      · rw [collapseLoop_succ_some rule nb entropy rng pfuel n assign u
          rix k evs c hf a' k' hrun] at h
        have ha'_le : ∀ x, entropy (a' x) ≤ entropy (assign x) := fun x =>
          le_trans (run_propagation_entropy_le rule nb entropy Hmono pfuel _ _ k
            a' k' hrun x) (observeStep_entropy_le rule nb entropy Hobs assign c x)
        refine ih a' _ (rix + 1) k' _ res ?_ h
        intro x hx hpos
        have hpos0 : 0 < entropy (assign x) := lt_of_lt_of_le hpos (ha'_le x)
        rw [find_snd]
        refine List.mem_filter.mpr ⟨hinv x hx hpos0, ?_⟩
        simp only [decide_eq_true_eq]
        omega

end LoopMono

section CollapseMono

variable {C D St : Type} [DecidableEq C]
variable (rule : CollapseRule D St) (nb : C → D → Option C) (entropy : St → Nat)
variable (coords : List C) (rng : Nat → Nat)

/-- Under a monotone rule and a resolving observation, a completed
`collapse` run pointwise does not increase any cell's entropy. -/
lemma collapse_entropy_le
    (Hmono : ∀ s ns, entropy (rule.collapse s ns) ≤ entropy s)
    (Hobs : ∀ s ns, entropy (rule.observe s ns) = 0)
    (fuel pfuel : Nat) (assign : C → St) (res : CollapseResult C St)
    (h : collapse rule nb entropy coords rng fuel pfuel assign = some res) :
    ∀ x, entropy (res.assign x) ≤ entropy (assign x) := by
  rcases hrun : run_propagation rule nb entropy pfuel assign
      (collapseInit entropy coords assign) 0 with _ | ⟨a1, k⟩
  · rw [collapse_eq_none rule nb entropy coords rng fuel pfuel assign hrun] at h
    exact absurd h (by simp)
  · rw [collapse_eq_some rule nb entropy coords rng fuel pfuel assign a1 k hrun]
      at h
    intro x
    refine le_trans (collapseLoop_entropy_le rule nb entropy rng pfuel Hmono Hobs
      fuel a1 _ 0 k [] res h x) ?_
    exact run_propagation_entropy_le rule nb entropy Hmono pfuel assign _ 0 a1 k
      hrun x

/-- Under a monotone rule and a resolving observation, at return every
positive-entropy coordinate of the space is in the returned unresolved
set. -/
lemma collapse_inv
    (Hmono : ∀ s ns, entropy (rule.collapse s ns) ≤ entropy s)
    (Hobs : ∀ s ns, entropy (rule.observe s ns) = 0)
    (fuel pfuel : Nat) (assign : C → St) (res : CollapseResult C St)
    (h : collapse rule nb entropy coords rng fuel pfuel assign = some res) :
    ∀ x ∈ coords, 0 < entropy (res.assign x) → x ∈ res.unresolved := by
  rcases hrun : run_propagation rule nb entropy pfuel assign
      (collapseInit entropy coords assign) 0 with _ | ⟨a1, k⟩
  · rw [collapse_eq_none rule nb entropy coords rng fuel pfuel assign hrun] at h
    exact absurd h (by simp)
  · rw [collapse_eq_some rule nb entropy coords rng fuel pfuel assign a1 k hrun]
      at h
    refine collapseLoop_inv rule nb entropy rng pfuel coords Hmono Hobs fuel a1 _
      0 k [] res ?_ h
    intro x hx hpos
    exact collapseInit_mem entropy coords assign x hx
      (lt_of_lt_of_le hpos (run_propagation_entropy_le rule nb entropy Hmono
        pfuel assign _ 0 a1 k hrun x))

end CollapseMono

section HashOrder

variable {C D St : Type} [DecidableEq C]
variable (rule : CollapseRule D St) (nb : C → D → Option C) (entropy : St → Nat)
variable (ord : List C → List C) (rng : Nat → Nat) (pfuel : Nat)

/-- The order-explicit main loop stops when the selection over the
set-iteration order returns no candidate. -/
lemma collapseLoopH_succ_none (fuel : Nat) (assign : C → St) (u : List C)
    (rix k : Nat) (evs : List (C × Nat))
    (hf : (find_next_to_collapse entropy assign (ord u) (rng rix)).1 = none) :
    collapseLoopH rule nb entropy ord rng pfuel (fuel + 1) assign u rix k evs =
      some ⟨assign, (find_next_to_collapse entropy assign (ord u) (rng rix)).2,
        rix, k, evs⟩ := by
  simp only [collapseLoopH, hf]

/-- The order-explicit main loop on a selected candidate whose
propagation completes. -/
lemma collapseLoopH_succ_some (fuel : Nat) (assign : C → St) (u : List C)
    (rix k : Nat) (evs : List (C × Nat)) (c : C)
    (hf : (find_next_to_collapse entropy assign (ord u) (rng rix)).1 = some c)
    (a' : C → St) (k' : Nat)
    (hrun : run_propagation rule nb entropy pfuel
        (observeStep rule nb entropy assign c).1
        (observeStep rule nb entropy assign c).2.1 k = some (a', k')) :
    collapseLoopH rule nb entropy ord rng pfuel (fuel + 1) assign u rix k evs =
      collapseLoopH rule nb entropy ord rng pfuel fuel a'
        (find_next_to_collapse entropy assign (ord u) (rng rix)).2 (rix + 1) k'
        (evs ++ [(observeStep rule nb entropy assign c).2.2]) := by
  simp only [collapseLoopH, hf, hrun]

/-- The order-explicit main loop fails when a propagation runs out of
fuel. -/
lemma collapseLoopH_succ_some_fail (fuel : Nat) (assign : C → St) (u : List C)
    (rix k : Nat) (evs : List (C × Nat)) (c : C)
    (hf : (find_next_to_collapse entropy assign (ord u) (rng rix)).1 = some c)
    (hrun : run_propagation rule nb entropy pfuel
        (observeStep rule nb entropy assign c).1
        (observeStep rule nb entropy assign c).2.1 k = none) :
    collapseLoopH rule nb entropy ord rng pfuel (fuel + 1) assign u rix k evs =
      none := by
  simp only [collapseLoopH, hf, hrun]

/-- With the identity iteration order the order-explicit main loop is the
embedded main loop. -/
lemma collapseLoopH_id :
    ∀ (fuel : Nat) (assign : C → St) (u : List C) (rix k : Nat)
      (evs : List (C × Nat)),
      collapseLoopH rule nb entropy id rng pfuel fuel assign u rix k evs =
        collapseLoop rule nb entropy rng pfuel fuel assign u rix k evs := by
  intro fuel
  induction fuel with
  | zero => intro assign u rix k evs; rfl
  | succ n ih =>
    intro assign u rix k evs
    rcases hf : (find_next_to_collapse entropy assign u (rng rix)).1 with _ | c
    · rw [collapseLoopH_succ_none rule nb entropy id rng pfuel n assign u rix k
        evs hf, collapseLoop_succ_none rule nb entropy rng pfuel n assign u rix
        k evs hf]
      rfl
    · rcases hrun : run_propagation rule nb entropy pfuel
          (observeStep rule nb entropy assign c).1
          (observeStep rule nb entropy assign c).2.1 k with _ | ⟨a', k'⟩
      · rw [collapseLoopH_succ_some_fail rule nb entropy id rng pfuel n assign
          u rix k evs c hf hrun, collapseLoop_succ_some_fail rule nb entropy rng
          pfuel n assign u rix k evs c hf hrun]
      · rw [collapseLoopH_succ_some rule nb entropy id rng pfuel n assign u rix
          k evs c hf a' k' hrun, collapseLoop_succ_some rule nb entropy rng
          pfuel n assign u rix k evs c hf a' k' hrun]
        exact ih a' _ (rix + 1) k' _

/-- With the identity iteration order the order-explicit driver is the
embedded driver `collapse`: the embedding fixes one iteration order, and
`collapseHash` generalizes it. -/
lemma collapseHash_id (coords : List C) (fuel : Nat) (assign : C → St) :
    collapseHash rule nb entropy id coords rng fuel pfuel assign =
      collapse rule nb entropy coords rng fuel pfuel assign := by
  rcases hrun : run_propagation rule nb entropy pfuel assign
      (collapseInit entropy coords assign) 0 with _ | ⟨a1, k⟩
  · simp only [collapseHash, collapse, id_eq, hrun]
  · simp only [collapseHash, collapse, id_eq, hrun]
    exact collapseLoopH_id rule nb entropy rng pfuel fuel a1
      (collapseInit entropy coords assign) 0 k []

end HashOrder

/-!
Concrete collaborator instances used by the witnesses and counterexamples
below.  `wRule` is a monotone rule (its collapse is the identity, its
observe resolves to the first possibility) over states `Fin 4` whose
entropy is their value; the space is a set of isolated cells (no
offsets). -/

/-- Witness rule: identity collapse, observation resolves to `0`. -/
def wRule : CollapseRule Unit (Fin 4) := ⟨[], fun s _ => s, fun _ _ => 0⟩

/-- Witness neighbor lookup: no cell has neighbors. -/
def wNb : Nat → Unit → Option Nat := fun _ _ => none

/-- Witness entropy: the value of the state. -/
def wEntropy : Fin 4 → Nat := Fin.val

/-- Witness initial contents: every cell has entropy 2. -/
def wAssign : Nat → Fin 4 := fun _ => 2

/-- Witness initial contents: every cell already resolved. -/
def wAssign0 : Nat → Fin 4 := fun _ => 0

/-- Witness random stream: always draw 0. -/
def wRng : Nat → Nat := fun _ => 0

/-- The result of the full witness run `collapse wRule wNb wEntropy [0, 1]
wRng 3 2 wAssign`: both cells observed at entropy 2 and resolved. -/
def wRes2 : CollapseResult Nat (Fin 4) :=
  ⟨Function.update (Function.update (Function.update
      (Function.update wAssign 0 2) 1 2) 0 0) 1 0,
   [], 2, 2, [(0, 2), (1, 2)]⟩

/-- The result of the witness run on an already-resolved space. -/
def wRes0 : CollapseResult Nat (Fin 4) := ⟨wAssign0, [], 0, 0, []⟩

/-- C1: for every finite space and every rule whose collapse operation
never increases a cell's entropy and whose observe operation reduces its
cell's entropy to 0 (entropies being `u32` values), the driver
`collapse(space, rule)` terminates — there is enough fuel for the
embedded loops to complete — and when it returns every cell in the space
has entropy 0. -/
theorem C1_collapse_terminates_all_resolved {C D St : Type} [DecidableEq C]
    (rule : CollapseRule D St) (nb : C → D → Option C) (entropy : St → Nat)
    (coords : List C) (rng : Nat → Nat) (assign : C → St)
    (hnod : coords.Nodup)
    (Hnb : ∀ (c : C) (d : D) (c' : C), nb c d = some c' → c' ∈ coords)
    (Hmono : ∀ s ns, entropy (rule.collapse s ns) ≤ entropy s)
    (Hobs : ∀ s ns, entropy (rule.observe s ns) = 0)
    (Hs : ∀ s, entropy s ≤ UINT32_MAX) :
    ∃ fuel pfuel res,
      collapse rule nb entropy coords rng fuel pfuel assign = some res ∧
      ∀ x ∈ coords, entropy (res.assign x) = 0 := by
  obtain ⟨fuel, pfuel, res, h⟩ := collapse_terminates rule nb entropy coords rng
    hnod Hmono Hobs Hnb assign
  exact ⟨fuel, pfuel, res, h,
    (collapse_some_spec rule nb entropy coords rng Hmono Hobs Hs fuel pfuel
      assign res h).1⟩

/-- Witness for C1 at a two-cell space with entropy-2 cells. -/
theorem C1_witness :
    ∃ fuel pfuel res,
      collapse wRule wNb wEntropy [0, 1] wRng fuel pfuel wAssign = some res ∧
      ∀ x ∈ [0, 1], wEntropy (res.assign x) = 0 :=
  C1_collapse_terminates_all_resolved wRule wNb wEntropy [0, 1] wRng wAssign
    (by decide)
    (fun _ _ _ h => absurd h (by simp [wNb]))
    (fun _ _ => le_rfl)
    (fun _ _ => rfl)
    (fun s => le_trans (Nat.le_of_lt s.isLt) (by decide))

/-- C2 fails on the code: a rule may rewrite a state whose entropy is
already 0 (monotonicity only constrains the entropy), and `collapse`
never calls the rule on resolved cells, so the returned space need not be
a fixed point of `rule.collapse`.  Here the single cell starts resolved,
`collapse` returns it untouched, and applying the rule to it changes its
state. -/
def cexRule : CollapseRule Unit Nat := ⟨[], fun s _ => s + 1, fun s _ => s⟩

/-- Counterexample entropy: every state counts as resolved. -/
def cexEntropy : Nat → Nat := fun _ => 0

/-- Counterexample neighbor lookup: no neighbors. -/
def cexNb : Nat → Unit → Option Nat := fun _ _ => none

/-- Counterexample initial contents. -/
def cexAssign : Nat → Nat := fun _ => 0

/-- Counterexample random stream. -/
def cexRng : Nat → Nat := fun _ => 0

/-- The result of the counterexample run: the space is returned as it
was. -/
def cexRes : CollapseResult Nat Nat := ⟨cexAssign, [], 0, 0, []⟩

/-- C2, counterexample: `cexRule` is monotone (entropy is constantly 0)
and its observe resolves, yet after `collapse` returns, applying
`rule.collapse` to cell 0 with the snapshot of its neighbors changes the
cell — the returned space is not a fixed point of the rule. -/
theorem C2_fixed_point_counterexample :
    collapse cexRule cexNb cexEntropy [0] cexRng 1 1 cexAssign = some cexRes ∧
    (∀ s ns, cexEntropy (cexRule.collapse s ns) ≤ cexEntropy s) ∧
    (∀ s ns, cexEntropy (cexRule.observe s ns) = 0) ∧
    cexRule.collapse (cexRes.assign 0)
        (snapshot cexRes.assign (neighborCoords cexNb cexRule.neighbor_offsets 0)) ≠
      cexRes.assign 0 :=
  ⟨rfl, fun _ _ => le_rfl, fun _ _ => rfl, by decide⟩

/-- C2, amended: after `collapse` returns, every cell has entropy 0;
consequently, provided `rule.collapse` leaves states of entropy 0
unchanged, applying `rule.collapse` to any cell with the snapshot of its
neighbors' states produces no change — the space is a fixed point of the
rule. -/
theorem C2_fixed_point_amended {C D St : Type} [DecidableEq C]
    (rule : CollapseRule D St) (nb : C → D → Option C) (entropy : St → Nat)
    (coords : List C) (rng : Nat → Nat)
    (Hmono : ∀ s ns, entropy (rule.collapse s ns) ≤ entropy s)
    (Hobs : ∀ s ns, entropy (rule.observe s ns) = 0)
    (Hs : ∀ s, entropy s ≤ UINT32_MAX)
    (Hfix0 : ∀ s ns, entropy s = 0 → rule.collapse s ns = s)
    (fuel pfuel : Nat) (assign : C → St) (res : CollapseResult C St)
    (h : collapse rule nb entropy coords rng fuel pfuel assign = some res) :
    ∀ c ∈ coords,
      rule.collapse (res.assign c)
        (snapshot res.assign (neighborCoords nb rule.neighbor_offsets c)) =
      res.assign c := by
  intro c hc
  exact Hfix0 _ _ ((collapse_some_spec rule nb entropy coords rng Hmono Hobs Hs
    fuel pfuel assign res h).1 c hc)

/-- Witness for the amended C2 on an already-resolved space with the
identity-collapse rule. -/
theorem C2_witness :
    wRule.collapse (wRes0.assign 0)
        (snapshot wRes0.assign (neighborCoords wNb wRule.neighbor_offsets 0)) =
      wRes0.assign 0 :=
  C2_fixed_point_amended wRule wNb wEntropy [0, 1] wRng
    (fun _ _ => le_rfl)
    (fun _ _ => rfl)
    (fun s => le_trans (Nat.le_of_lt s.isLt) (by decide))
    (fun _ _ _ => rfl)
    1 1 wAssign0 wRes0 rfl 0 (by decide)

/-- C3: `find_next_to_collapse` (given the driver's invariants: the
unresolved set is duplicate-free, lies inside the space, contains every
positive-entropy coordinate, and entropies are `u32` values) returns a
coordinate among the currently-unresolved cells whose entropy is minimal
among all positive entropies; the choice is made by indexing a
duplicate-free list of exactly the tied minimal candidates with the
uniform draw `r % length`; it removes from the unresolved set exactly the
coordinates whose entropy has become 0; and it returns no candidate if
and only if all cells have entropy 0. -/
theorem C3_find_next_to_collapse_spec {C St : Type} [DecidableEq C]
    (entropy : St → Nat) (assign : C → St) (coords unresolved : List C) (r : Nat)
    (hnodup : unresolved.Nodup)
    (hsub : ∀ x ∈ unresolved, x ∈ coords)
    (hinv : ∀ x ∈ coords, 0 < entropy (assign x) → x ∈ unresolved)
    (hmax : ∀ x ∈ unresolved, entropy (assign x) ≤ UINT32_MAX) :
    ((find_next_to_collapse entropy assign unresolved r).2 =
      unresolved.filter (fun x => decide (¬ entropy (assign x) = 0))) ∧
    ((find_next_to_collapse entropy assign unresolved r).1 = none ↔
      ∀ x ∈ coords, entropy (assign x) = 0) ∧
    (∀ c, (find_next_to_collapse entropy assign unresolved r).1 = some c →
      c ∈ unresolved ∧ 0 < entropy (assign c) ∧
      ∀ x ∈ unresolved, 0 < entropy (assign x) →
        entropy (assign c) ≤ entropy (assign x)) ∧
    (∀ c, (find_next_to_collapse entropy assign unresolved r).1 = some c →
      ∃ cands : List C, cands.Nodup ∧
        (∀ x, x ∈ cands ↔ x ∈ unresolved ∧ 0 < entropy (assign x) ∧
          ∀ y ∈ unresolved, 0 < entropy (assign y) →
            entropy (assign x) ≤ entropy (assign y)) ∧
        ∃ hlt : r % cands.length < cands.length,
          c = cands.get ⟨r % cands.length, hlt⟩) := by
  refine ⟨find_snd entropy assign unresolved r, ?_, ?_, ?_⟩
  · constructor
    · intro hnone x hx
      have hall := (find_fst_none_iff entropy assign unresolved r hmax).mp hnone
      by_contra hne
      exact hne (hall x (hinv x hx (Nat.pos_of_ne_zero hne)))
    · intro hall
      exact (find_fst_none_iff entropy assign unresolved r hmax).mpr
        (fun x hxu => hall x (hsub x hxu))
  · intro c hc
    exact find_fst_some entropy assign unresolved r c hc
  · intro c hc
    rw [find_fst_eq] at hc
    rcases hsc : (findScan entropy assign unresolved UINT32_MAX [] []).2.1
      with _ | ⟨a, t⟩
    · rw [hsc] at hc
      exact absurd hc (by simp)
    · rw [hsc] at hc
      have hch := findScan_cands entropy assign unresolved UINT32_MAX [] []
        UINT32_MAX_pos (by simp)
      rw [hsc] at hch
      have hlow := findScan_low entropy assign unresolved UINT32_MAX [] []
        UINT32_MAX_pos
      have haf : a ∈ List.filter (fun x => decide (entropy (assign x) =
          (findScan entropy assign unresolved UINT32_MAX [] []).1)) ([] ++ unresolved) := by
        rw [← hch]
        exact List.mem_cons_self a t
      have ham := List.mem_filter.mp haf
      simp only [decide_eq_true_eq] at ham
      have hau : a ∈ unresolved := by simpa using ham.1
      have hapos : 0 < entropy (assign a) := by
        rw [ham.2]
        exact hlow.1
      refine ⟨a :: t, ?_, ?_, ?_⟩
      · rw [hch]
        exact List.Nodup.filter _ (by simpa using hnodup)
      · intro x
        constructor
        · intro hx
          rw [hch] at hx
          have hm := List.mem_filter.mp hx
          simp only [decide_eq_true_eq] at hm
          have hxu : x ∈ unresolved := by simpa using hm.1
          refine ⟨hxu, ?_, ?_⟩
          · rw [hm.2]; exact hlow.1
          · intro y hy hypos
            rw [hm.2]
            exact hlow.2.2 y hy hypos
        · rintro ⟨hxu, hxpos, hxmin⟩
          rw [hch]
          refine List.mem_filter.mpr ⟨by simpa using hxu, ?_⟩
          simp only [decide_eq_true_eq]
          have hge := hlow.2.2 x hxu hxpos
          have hle := hxmin a hau hapos
          omega
      · have hlen : r % (a :: t).length < (a :: t).length :=
          Nat.mod_lt _ (by simp)
        refine ⟨hlen, ?_⟩
        simp only [Option.some.injEq] at hc
        rw [← hc, List.getD_eq_getElem (a :: t) a hlen, List.get_eq_getElem]

/-- Witness state assignment for C3: cell 1 resolved, cells 0 and 2 at
entropy 2. -/
def w3Assign : Nat → Fin 4 := fun c => if c = 1 then 0 else 2

/-- Witness for C3: on the three-cell space with unresolved set `[0, 2]`,
the retain step keeps both unresolved cells. -/
theorem C3_witness :
    (find_next_to_collapse wEntropy w3Assign [0, 2] 5).2 =
      [0, 2].filter (fun x => decide (¬ wEntropy (w3Assign x) = 0)) :=
  (C3_find_next_to_collapse_spec wEntropy w3Assign [0, 1, 2] [0, 2] 5
    (by decide) (by decide) (by decide)
    (fun x _ => le_trans (Nat.le_of_lt (w3Assign x).isLt) (by decide))).1

/-- C4: in each step of the propagation loop, a popped coordinate whose
entropy is 0 is skipped without invoking the rule (state, remaining
queue and call count unchanged); otherwise `rule.collapse` is invoked on
it with a snapshot of its neighbors' states (one more call counted), and
its neighbors are re-enqueued exactly when the cell's entropy strictly
decreased, and then only those neighbors that exist and whose current
entropy is positive. -/
theorem C4_propagation_step {C D St : Type} [DecidableEq C]
    (rule : CollapseRule D St) (nb : C → D → Option C) (entropy : St → Nat)
    (fuel : Nat) (assign : C → St) (c : C) (q : List C) (k : Nat) :
    (entropy (assign c) = 0 →
      run_propagation rule nb entropy (fuel + 1) assign (c :: q) k =
        run_propagation rule nb entropy fuel assign q k) ∧
    (¬ entropy (assign c) = 0 →
      run_propagation rule nb entropy (fuel + 1) assign (c :: q) k =
        run_propagation rule nb entropy fuel
          (Function.update assign c (rule.collapse (assign c)
            (snapshot assign (neighborCoords nb rule.neighbor_offsets c))))
          (q ++ (if entropy (rule.collapse (assign c)
                (snapshot assign (neighborCoords nb rule.neighbor_offsets c))) <
              entropy (assign c) then
            ((neighborCoords nb rule.neighbor_offsets c).filterMap id).filter
              (fun n => decide (0 < entropy (Function.update assign c
                (rule.collapse (assign c)
                  (snapshot assign (neighborCoords nb rule.neighbor_offsets c)))
                n)))
          else []))
          (k + 1)) := by
  constructor
  · intro h0
    rw [run_propagation_cons, propStep_zero rule nb entropy assign c q h0]
    rfl
  · intro h1
    rw [run_propagation_cons]
    by_cases hlt : entropy (propNewState rule nb assign c) < entropy (assign c)
    · rw [propStep_pos_shrink rule nb entropy assign c q h1 hlt]
      have hlt' := hlt
      simp only [propNewState] at hlt'
      rw [if_pos hlt']
      simp only [propNewState, propEnqueue]
      congr 2
      refine List.filter_congr ?_
      intro x _
      rw [decide_eq_decide]
      omega
    · rw [propStep_pos_noshrink rule nb entropy assign c q h1 hlt]
      have hlt' := hlt
      simp only [propNewState] at hlt'
      rw [if_neg hlt', List.append_nil]
      simp only [propNewState]

/-- Witness for C4: popping a resolved cell skips it. -/
theorem C4_witness :
    run_propagation wRule wNb wEntropy 1 wAssign0 [0] 7 =
      run_propagation wRule wNb wEntropy 0 wAssign0 [] 7 :=
  (C4_propagation_step wRule wNb wEntropy 0 wAssign0 0 [] 7).1 rfl

/-- C5: throughout a run of `collapse` — through each propagation step,
each observation step, each completed propagation loop, and the whole
driver — every cell's entropy is monotonically non-increasing, assuming
the rule's collapse operation only shrinks states and observe drops
entropy to 0. -/
theorem C5_entropy_monotone {C D St : Type} [DecidableEq C]
    (rule : CollapseRule D St) (nb : C → D → Option C) (entropy : St → Nat)
    (Hmono : ∀ s ns, entropy (rule.collapse s ns) ≤ entropy s)
    (Hobs : ∀ s ns, entropy (rule.observe s ns) = 0) :
    (∀ (assign : C → St) (c : C) (q : List C) (x : C),
      entropy ((propStep rule nb entropy assign c q).1 x) ≤ entropy (assign x)) ∧
    (∀ (assign : C → St) (c : C) (x : C),
      entropy ((observeStep rule nb entropy assign c).1 x) ≤ entropy (assign x)) ∧
    (∀ (fuel : Nat) (assign : C → St) (q : List C) (k : Nat) (a' : C → St)
      (k' : Nat),
      run_propagation rule nb entropy fuel assign q k = some (a', k') →
      ∀ x, entropy (a' x) ≤ entropy (assign x)) ∧
    (∀ (coords : List C) (rng : Nat → Nat) (fuel pfuel : Nat) (assign : C → St)
      (res : CollapseResult C St),
      collapse rule nb entropy coords rng fuel pfuel assign = some res →
      ∀ x, entropy (res.assign x) ≤ entropy (assign x)) :=
  ⟨propStep_entropy_le rule nb entropy Hmono,
   observeStep_entropy_le rule nb entropy Hobs,
   run_propagation_entropy_le rule nb entropy Hmono,
   fun coords rng fuel pfuel assign res h =>
     collapse_entropy_le rule nb entropy coords rng Hmono Hobs fuel pfuel
       assign res h⟩

/-- Witness for C5 on the completed two-cell witness run: cell 0 ends
with no more entropy than it started with. -/
theorem C5_witness : wEntropy (wRes2.assign 0) ≤ wEntropy (wAssign 0) :=
  (C5_entropy_monotone wRule wNb wEntropy (fun _ _ => le_rfl)
    (fun _ _ => rfl)).2.2.2 [0, 1] wRng 3 2 wAssign wRes2 rfl 0

/-- C6 counterexample rule: collapse resolves any cell outright. -/
def c6Rule : CollapseRule Unit Nat := ⟨[], fun _ _ => 0, fun _ _ => 0⟩

/-- C6 counterexample entropy: the state value itself. -/
def c6Entropy : Nat → Nat := fun s => s

/-- C6 counterexample neighbor lookup: no neighbors. -/
def c6Nb : Nat → Unit → Option Nat := fun _ _ => none

/-- C6 counterexample initial contents: the single cell has entropy 1. -/
def c6Assign : Nat → Nat := fun _ => 1

/-- C6 fails on the code: membership in the unresolved set is not
equivalent to positive entropy at every point of a run.  Between the
seeded propagation pass and the first selection — the state that
`collapse` with `pfuel = 2` computes before entering its loop —
coordinate 0 is still in the unresolved set (the propagation loop never
touches that set) while its entropy has already dropped to 0, so the
claimed equivalence evaluates to `false` there. -/
theorem C6_unresolved_iff_counterexample :
    collapseInit c6Entropy [0] c6Assign = [0] ∧
    Option.map (fun p => decide ((0 : Nat) ∈ collapseInit c6Entropy [0] c6Assign ↔
        0 < c6Entropy (p.1 0)))
      (run_propagation c6Rule c6Nb c6Entropy 2 c6Assign
        (collapseInit c6Entropy [0] c6Assign) 0) = some false :=
  ⟨by decide, by decide⟩

/-- C6, amended: at every point during a run of `collapse` — after
seeding, across every propagation step, every observation step and every
selection — every coordinate of the space with positive entropy is a
member of the driver's unresolved set, and so at return; the converse
direction may fail temporarily, as a resolved coordinate stays in the set
until the next selection scan removes it.  Assumes the monotone rule and
resolving observe of the driver's contract. -/
theorem C6_unresolved_invariant_amended {C D St : Type} [DecidableEq C]
    (rule : CollapseRule D St) (nb : C → D → Option C) (entropy : St → Nat)
    (coords : List C) (rng : Nat → Nat)
    (Hmono : ∀ s ns, entropy (rule.collapse s ns) ≤ entropy s)
    (Hobs : ∀ s ns, entropy (rule.observe s ns) = 0) :
    (∀ (assign : C → St), ∀ x ∈ coords, 0 < entropy (assign x) →
      x ∈ collapseInit entropy coords assign) ∧
    (∀ (assign : C → St) (u : List C) (c : C) (q : List C),
      (∀ x ∈ coords, 0 < entropy (assign x) → x ∈ u) →
      ∀ x ∈ coords, 0 < entropy ((propStep rule nb entropy assign c q).1 x) →
        x ∈ u) ∧
    (∀ (assign : C → St) (u : List C) (c : C),
      (∀ x ∈ coords, 0 < entropy (assign x) → x ∈ u) →
      ∀ x ∈ coords, 0 < entropy ((observeStep rule nb entropy assign c).1 x) →
        x ∈ u) ∧
    (∀ (assign : C → St) (u : List C) (r : Nat),
      (∀ x ∈ coords, 0 < entropy (assign x) → x ∈ u) →
      ∀ x ∈ coords, 0 < entropy (assign x) →
        x ∈ (find_next_to_collapse entropy assign u r).2) ∧
    (∀ (fuel pfuel : Nat) (assign : C → St) (res : CollapseResult C St),
      collapse rule nb entropy coords rng fuel pfuel assign = some res →
      ∀ x ∈ coords, 0 < entropy (res.assign x) → x ∈ res.unresolved) := by
  refine ⟨?_, ?_, ?_, ?_, ?_⟩
  · intro assign x hx hpos
    exact collapseInit_mem entropy coords assign x hx hpos
  · intro assign u c q hinv x hx hpos
    exact hinv x hx (lt_of_lt_of_le hpos
      (propStep_entropy_le rule nb entropy Hmono assign c q x))
  · intro assign u c hinv x hx hpos
    exact hinv x hx (lt_of_lt_of_le hpos
      (observeStep_entropy_le rule nb entropy Hobs assign c x))
  · intro assign u r hinv x hx hpos
    rw [find_snd]
    refine List.mem_filter.mpr ⟨hinv x hx hpos, ?_⟩
    simp only [decide_eq_true_eq]
    omega
  · intro fuel pfuel assign res h
    exact collapse_inv rule nb entropy coords rng Hmono Hobs fuel pfuel assign
      res h

/-- Witness for the amended C6: cell 0 of the witness space has positive
entropy and is seeded into the unresolved set. -/
theorem C6_witness : (0 : Nat) ∈ collapseInit wEntropy [0, 1] wAssign :=
  (C6_unresolved_invariant_amended wRule wNb wEntropy [0, 1] wRng
    (fun _ _ => le_rfl) (fun _ _ => rfl)).1 wAssign 0 (by decide) (by decide)

/-- C7 counterexample rule: identity collapse (monotone); observe picks
value 1 when the neighbor snapshot shows a cell resolved to 0, else value
0 — the alternation choice of spec scenario (c). -/
def h7Rule : CollapseRule Unit Nat :=
  ⟨[()], fun s _ => s, fun _ ns => if ns = [some 0] then 1 else 0⟩

/-- C7 counterexample entropy: state 2 means two possibilities left,
states 0 and 1 are resolved values. -/
def h7Entropy : Nat → Nat := fun s => if s = 2 then 1 else 0

/-- C7 counterexample neighbor lookup: cells 0 and 1 are each other's
single neighbor. -/
def h7Nb : Nat → Unit → Option Nat :=
  fun c _ => if c = 0 then some 1 else if c = 1 then some 0 else none

/-- C7 counterexample initial contents: both cells unresolved. -/
def h7Assign : Nat → Nat := fun _ => 2

/-- C7 counterexample random stream: every draw is 0. -/
def h7Rng : Nat → Nat := fun _ => 0

/-- C7 fails on the code: the driver's unresolved set is a
`std::collections::HashSet` with the default randomized `RandomState`,
so its iteration order — which fixes both the order of the tie-break
candidate list indexed by `gen_range` and the seeding order of the
initial work queue — is a randomness source that "identical
random-sampler sequences" does not fix.  With that order made explicit
(`collapseHash`; the embedded `collapse` is its identity-order instance
by `collapseHash_id`), two runs with the identical sampler stream
`h7Rng`, identical initial contents `h7Assign` and the identical,
contract-satisfying rule `h7Rule`, differing only in the set-iteration
order, resolve cell 0 to different values: the final spaces differ. -/
theorem C7_determinism_counterexample :
    (∀ s ns, h7Entropy (h7Rule.collapse s ns) ≤ h7Entropy s) ∧
    (∀ s ns, h7Entropy (h7Rule.observe s ns) = 0) ∧
    Option.map (fun r => r.assign 0)
        (collapseHash h7Rule h7Nb h7Entropy id [0, 1] h7Rng 3 2 h7Assign) =
      some 0 ∧
    Option.map (fun r => r.assign 0)
        (collapseHash h7Rule h7Nb h7Entropy List.reverse [0, 1] h7Rng 3 2
          h7Assign) = some 1 ∧
    Option.map (fun r => r.assign 0)
        (collapseHash h7Rule h7Nb h7Entropy id [0, 1] h7Rng 3 2 h7Assign) ≠
      Option.map (fun r => r.assign 0)
        (collapseHash h7Rule h7Nb h7Entropy List.reverse [0, 1] h7Rng 3 2
          h7Assign) := by
  refine ⟨fun _ _ => le_rfl, ?_, by decide, by decide, by decide⟩
  intro s ns
  by_cases h : ns = [some 0] <;> simp [h7Rule, h7Entropy, h]

/-- C7, amended: `collapse` is deterministic given its random inputs and
the unresolved-set iteration order — two runs with identical
random-sampler sequences, identical set-iteration orders, identical
initial space contents, and an identical rule produce identical final
results.  (The rule's own `observe` randomness is part of the rule value
here, so "identical rule" covers it.) -/
theorem C7_deterministic_amended {C D St : Type} [DecidableEq C]
    (rule : CollapseRule D St) (nb : C → D → Option C) (entropy : St → Nat)
    (coords : List C) (ord1 ord2 : List C → List C) (rng1 rng2 : Nat → Nat)
    (fuel pfuel : Nat) (assign : C → St)
    (hord : ∀ l, ord1 l = ord2 l) (hrng : ∀ i, rng1 i = rng2 i) :
    collapseHash rule nb entropy ord1 coords rng1 fuel pfuel assign =
      collapseHash rule nb entropy ord2 coords rng2 fuel pfuel assign := by
  have ho : ord1 = ord2 := funext hord
  have hr : rng1 = rng2 := funext hrng
  rw [ho, hr]

/-- Witness for the amended C7 with two syntactically different but equal
iteration orders and random streams. -/
theorem C7_witness :
    collapseHash wRule wNb wEntropy id [0, 1] wRng 3 2 wAssign =
      collapseHash wRule wNb wEntropy (fun l => l.reverse.reverse) [0, 1]
        (fun i => 0 * i) 3 2 wAssign :=
  C7_deterministic_amended wRule wNb wEntropy [0, 1] id
    (fun l => l.reverse.reverse) wRng (fun i => 0 * i) 3 2 wAssign
    (fun l => (List.reverse_reverse l).symm)
    (fun i => (Nat.zero_mul i).symm)

/-- A duplicate-free list included in a duplicate-free base list, all of
whose members satisfy a predicate, has as many elements as the base list
filtered to the predicate and membership. -/
lemma length_eq_length_filter_mem {α : Type} [DecidableEq α]
    (coords obs : List α) (p : α → Prop) [DecidablePred p]
    (hnod : coords.Nodup) (hobs : obs.Nodup)
    (hsub : ∀ x ∈ obs, x ∈ coords ∧ p x) :
    obs.length = (coords.filter (fun x => decide (p x ∧ x ∈ obs))).length := by
  have hfn : (coords.filter (fun x => decide (p x ∧ x ∈ obs))).Nodup :=
    List.Nodup.filter _ hnod
  have htf : (coords.filter (fun x => decide (p x ∧ x ∈ obs))).toFinset =
      obs.toFinset := by
    ext x
    simp only [List.mem_toFinset, List.mem_filter, decide_eq_true_eq]
    constructor
    · rintro ⟨_, _, hx⟩
      exact hx
    · intro hx
      exact ⟨(hsub x hx).1, (hsub x hx).2, hx⟩
  calc obs.length = obs.toFinset.card := (List.toFinset_card_of_nodup hobs).symm
    _ = (coords.filter (fun x => decide (p x ∧ x ∈ obs))).toFinset.card := by
        rw [htf]
    _ = (coords.filter (fun x => decide (p x ∧ x ∈ obs))).length :=
        List.toFinset_card_of_nodup hfn

/-- C8: during one run of `collapse`, the observed coordinates are
pairwise distinct and each had positive entropy at the start, so the
number of `rule.observe` calls equals the number of cells whose entropy
was positive at the start and which were observed — i.e. which did not
reach entropy 0 purely through propagation: every unobserved cell of
initially positive entropy ends at entropy 0 without a `rule.observe`
call on it. -/
theorem C8_observe_count {C D St : Type} [DecidableEq C]
    (rule : CollapseRule D St) (nb : C → D → Option C) (entropy : St → Nat)
    (coords : List C) (rng : Nat → Nat) (hnod : coords.Nodup)
    (Hmono : ∀ s ns, entropy (rule.collapse s ns) ≤ entropy s)
    (Hobs : ∀ s ns, entropy (rule.observe s ns) = 0)
    (Hs : ∀ s, entropy s ≤ UINT32_MAX)
    (fuel pfuel : Nat) (assign : C → St) (res : CollapseResult C St)
    (h : collapse rule nb entropy coords rng fuel pfuel assign = some res) :
    (res.events.map Prod.fst).Nodup ∧
    (∀ ce ∈ res.events, ce.1 ∈ coords ∧ 0 < entropy (assign ce.1)) ∧
    res.events.length = (coords.filter (fun x =>
      decide (0 < entropy (assign x) ∧ x ∈ res.events.map Prod.fst))).length ∧
    (∀ x ∈ coords, 0 < entropy (assign x) → ¬ x ∈ res.events.map Prod.fst →
      entropy (res.assign x) = 0) := by
  obtain ⟨h1, _, hnodup, hprops⟩ := collapse_some_spec rule nb entropy coords
    rng Hmono Hobs Hs fuel pfuel assign res h
  have hobs_sub : ∀ x ∈ res.events.map Prod.fst,
      x ∈ coords ∧ 0 < entropy (assign x) := by
    intro x hx
    rcases List.mem_map.mp hx with ⟨ce, hce, rfl⟩
    obtain ⟨hcoord, hpos, hle, _⟩ := hprops ce hce
    exact ⟨hcoord, lt_of_lt_of_le hpos hle⟩
  refine ⟨hnodup, ?_, ?_, ?_⟩
  · intro ce hce
    obtain ⟨hcoord, hpos, hle, _⟩ := hprops ce hce
    exact ⟨hcoord, lt_of_lt_of_le hpos hle⟩
  · rw [← List.length_map res.events Prod.fst]
    exact length_eq_length_filter_mem coords (res.events.map Prod.fst)
      (fun x => 0 < entropy (assign x)) hnod hnodup hobs_sub
  · intro x hx _ _
    exact h1 x hx

/-- Witness for C8 on the completed two-cell witness run: both cells are
observed exactly once. -/
theorem C8_witness : (wRes2.events.map Prod.fst).Nodup :=
  (C8_observe_count wRule wNb wEntropy [0, 1] wRng (by decide)
    (fun _ _ => le_rfl) (fun _ _ => rfl)
    (fun s => le_trans (Nat.le_of_lt s.isLt) (by decide))
    3 2 wAssign wRes2 rfl).1

/-- C9: if every cell of the space has entropy 0 on entry, `collapse`
returns immediately with the space untouched, no call to `rule.observe`
(no recorded events) and no call to `rule.collapse` (call count 0), and
no random draw consumed. -/
theorem C9_already_resolved {C D St : Type} [DecidableEq C]
    (rule : CollapseRule D St) (nb : C → D → Option C) (entropy : St → Nat)
    (coords : List C) (rng : Nat → Nat) (fuel pfuel : Nat) (assign : C → St)
    (H0 : ∀ x ∈ coords, entropy (assign x) = 0) :
    collapse rule nb entropy coords rng (fuel + 1) pfuel assign =
      some ⟨assign, [], 0, 0, []⟩ := by
  have hinit : collapseInit entropy coords assign = [] :=
    List.filter_eq_nil_iff.mpr (fun a ha => by simp [H0 a ha])
  have hrun : run_propagation rule nb entropy pfuel assign
      (collapseInit entropy coords assign) 0 = some (assign, 0) := by
    rw [hinit]
    exact run_propagation_nil rule nb entropy pfuel assign 0
  rw [collapse_eq_some rule nb entropy coords rng (fuel + 1) pfuel assign assign
    0 hrun, hinit]
  exact collapseLoop_succ_none rule nb entropy rng pfuel fuel assign [] 0 0 [] rfl

/-- Witness for C9 on the already-resolved two-cell space. -/
theorem C9_witness :
    collapse wRule wNb wEntropy [0, 1] wRng 1 1 wAssign0 =
      some ⟨wAssign0, [], 0, 0, []⟩ :=
  C9_already_resolved wRule wNb wEntropy [0, 1] wRng 0 1 wAssign0 (by decide)

/-- C10: whenever the driver invokes `rule.observe` on a cell, that
cell's entropy is strictly positive at the moment of the call: every
recorded observation event of a completed run carries the observed cell's
entropy at the call, and it is positive — with no assumption on the
rule. -/
theorem C10_observe_positive_entropy {C D St : Type} [DecidableEq C]
    (rule : CollapseRule D St) (nb : C → D → Option C) (entropy : St → Nat)
    (coords : List C) (rng : Nat → Nat) (fuel pfuel : Nat) (assign : C → St)
    (res : CollapseResult C St)
    (h : collapse rule nb entropy coords rng fuel pfuel assign = some res) :
    ∀ ce ∈ res.events, 0 < ce.2 :=
  collapse_events_pos rule nb entropy rng coords fuel pfuel assign res h

/-- Witness for C10 on the completed two-cell witness run: the first
observation happened at entropy 2. -/
theorem C10_witness : 0 < ((0, 2) : Nat × Nat).2 :=
  C10_observe_positive_entropy wRule wNb wEntropy [0, 1] wRng 3 2 wAssign wRes2
    rfl (0, 2) (by decide)
